import Mathlib

/-!
Verification development for the serialized memento pattern
(`src/Behavioural_Patterns/Memento_Patterns/serialized_memento_pattern.py`).

Two shallow embeddings of the same program are developed:

* a value-level model (`PVal`, `ODict`, `CareSt`) in which Python object
  graphs are modelled as immutable trees, so `copy.deepcopy` is the
  identity; this suffices for the claims about attribute dictionaries,
  readonly bookkeeping and the caretaker's `(history, cursor)` mechanics;

* a heap model (`HVal`, `HObj`, `Heap`) with explicit addresses and a
  memoised, fuel-bounded `copy.deepcopy`, used for the claims about
  object identity (snapshot isolation, identity-preserving restore, and
  the detached caretaker copy installed by `restore_memento`).
-/

/-- Python exception kinds raised (or raisable) by the code under study.
`readonlyViolation` is the `AttributeError("... is READ ONLY!")` in
`Originator.__setattr__`; `nameErr` is the `NameError` that the undefined
identifier `recursive_restore` inside `Originator.restore_memento` would
raise; `nothingToUndo`/`nothingToRedo` are the two `ValueError`s of
`Caretaker.undo`/`Caretaker.redo`; `fileNotFound` is the `ValueError` of
`Caretaker.load_from_disk`; `osError` stands for an I/O failure of
`open`/`pickle.dump` in `Caretaker.save_to_disk`. -/
inductive PyErr where
  | readonlyViolation
  | attributeNotFound
  | typeError
  | nameErr
  | indexError
  | nothingToUndo
  | nothingToRedo
  | fileNotFound
  | osError
deriving DecidableEq

/-- Value-level model of a Python value stored in an `Originator.__dict__`.
`vset` models the Python `set` of attribute names kept under the
name-mangled key `"_Originator__readonly"`; `vcare` models a reference to
the caretaker stored under `"_Originator__caretaker"` (opaque at value
level); `vobj` models a nested `Originator` by its `__dict__`. -/
inductive PVal where
  | vint (n : Int)
  | vstr (s : String)
  | vbool (b : Bool)
  | vnone
  | vset (ss : List String)
  | vcare
  | vobj (d : List (String × PVal))

/-- The `__dict__` of an `Originator`: insertion-ordered association list. -/
abbrev ODict := List (String × PVal)

/-- Value passed to `Originator.__setattr__`: either a plain value or one
wrapped in the `Readonly` marker class. -/
inductive SetVal where
  | plain (v : PVal)
  | ro (v : PVal)

/-- Keys of an attribute dictionary, in insertion order. -/
def dictKeys (d : ODict) : List String := d.map (·.1)

/-- Python attribute lookup restricted to the instance `__dict__`
(first binding wins; our dictionaries keep keys unique). -/
def lookupD : ODict → String → Option PVal
  | [], _ => none
  | (k, v) :: rest, key => if k = key then some v else lookupD rest key

/-- Model of `hasattr(self, key)` for the attribute names this program
probes (none of which collide with class-level attributes). -/
def pyHasattr (d : ODict) (key : String) : Bool := (lookupD d key).isSome

/-- Model of `object.__setattr__`: overwrite the existing binding in place
or append a new one, preserving insertion order. -/
def setattrRaw : ODict → String → PVal → ODict
  | [], key, v => [(key, v)]
  | (k, w) :: rest, key, v =>
    if k = key then (k, v) :: rest else (k, w) :: setattrRaw rest key v

/-- Model of reading `self.__readonly` (the name-mangled key
`"_Originator__readonly"`); raises `AttributeError` when absent and
`TypeError` when the stored value is not a set. -/
def getReadonly (d : ODict) : Except PyErr (List String) :=
  match lookupD d "_Originator__readonly" with
  | some (.vset ss) => .ok ss
  | some _ => .error .typeError
  | none => .error .attributeNotFound

/-- Model of `Originator.__setattr__` (lines 56-66).
STEP 1 guards with `hasattr(self, "_readonly")` — note the guard probes the
literal attribute name `"_readonly"`, while the readonly set is stored
under the name-mangled key `"_Originator__readonly"`.
STEP 2 unwraps a `Readonly` marker, adding the key to `self.__readonly`.
STEP 3 stores via `object.__setattr__`. -/
def setattrO (d : ODict) (key : String) (v : SetVal) : Except PyErr ODict :=
  match (if pyHasattr d "_readonly" then
      match getReadonly d with
      | .error e => .error e
      | .ok ss => if key ∈ ss then .error PyErr.readonlyViolation else .ok ()
    else (.ok () : Except PyErr Unit)) with
  | .error e => .error e
  | .ok _ =>
    match v with
    | .ro w =>
      match getReadonly d with
      | .error e => .error e
      | .ok ss =>
        let d₁ := setattrRaw d "_Originator__readonly"
          (.vset (if key ∈ ss then ss else ss ++ [key]))
        .ok (setattrRaw d₁ key w)
    | .plain w => .ok (setattrRaw d key w)

/-- Model of `Originator.__init__` (lines 68-74): sets
`self.__caretaker`, then `self.__readonly = set()`, then each keyword
argument, all through `__setattr__`. -/
def initDict (care : PVal) (kwargs : List (String × SetVal)) : Except PyErr ODict := do
  let d ← setattrO [] "_Originator__caretaker" (.plain care)
  let d ← setattrO d "_Originator__readonly" (.plain (.vset []))
  kwargs.foldlM (fun acc kv => setattrO acc kv.1 kv.2) d

/-- Remove every binding of `key` (Python dict keys are unique, so this is
`delattr` on the instance `__dict__`). -/
def removeKey (d : ODict) (key : String) : ODict := d.filter (fun p => p.1 ≠ key)

/-- Model of `Originator.delete_state` (lines 95-112): collects the
requested names that exist (`if hasattr(self, key)` — absent names are
skipped; the dict comprehension collapses duplicates), deletes them with
`delattr` (no readonly check on this path), and reports whether anything
was deleted (which decides whether an auto-checkpoint fires). No
exception can be raised. -/
def deleteState (d : ODict) (args : List String) : ODict × Bool :=
  let present := (args.filter (fun k => pyHasattr d k)).dedup
  (present.foldl (fun acc k => removeKey acc k) d, !present.isEmpty)

/-- Whether a value is an `iOriginator` instance (`isinstance(value, iOriginator)`). -/
def isObjV : PVal → Bool
  | .vobj _ => true
  | _ => false

/-- The inner loop `_recursive_restore(snapshot, target)` of
`Originator.restore_memento` (lines 139-150), starting from the target
dictionary accumulated so far.  When the snapshot value is an
`iOriginator` and the target already holds an `iOriginator` at the same
key, the code calls the undefined name `recursive_restore` (the local
function is called `_recursive_restore`), which raises `NameError`;
otherwise it stores a deep copy through `setattr` (hence through
`Originator.__setattr__`).  On an exception the partially rebuilt
dictionary is returned together with the error. -/
def restoreFrom : ODict → ODict → ODict × Option PyErr
  | tgt, [] => (tgt, none)
  | tgt, (k, v) :: rest =>
    if isObjV v && (match lookupD tgt k with | some w => isObjV w | none => false) then
      (tgt, some .nameErr)
    else
      match setattrO tgt k (.plain v) with
      | .error e => (tgt, some e)
      | .ok tgt' => restoreFrom tgt' rest

/-- Model of `Originator.restore_memento` (lines 136-154): clears
`self.__dict__`, materialises the snapshot (`memento.get_snapshot()`,
a deep copy — the identity at value level), and rebuilds from the empty
dictionary with `_recursive_restore`. -/
def restoreMemento (m : ODict) : ODict × Option PyErr :=
  restoreFrom [] m

/-- User-visible attribute state, as rendered by `Originator.__str__`
(lines 114-129): internal bookkeeping keys (`_Originator__*` and the
literal `_readonly`) are excluded. -/
def userAttrs (d : ODict) : ODict :=
  d.filter (fun p => ¬ (p.1.startsWith "_Originator__" ∨ p.1 = "_readonly"))

/-- Zero-padding to three digits, as in the label format string
`f"Memento: {self._label_counter:03d} {timestamp}"`. -/
def pad3 (n : Nat) : String :=
  if n < 10 then "00" ++ toString n
  else if n < 100 then "0" ++ toString n
  else toString n

/-- Model of `Caretaker._generate_label` (lines 208-215) applied after the
counter increment; `ts` stands for the wall-clock timestamp string. -/
def genLabel (counter : Nat) (ts : String) (description : Option String) : String :=
  let label := "Memento: " ++ pad3 counter ++ " " ++ ts
  match description with
  | some s => label ++ ": " ++ s
  | none => label

/-- Value-level model of the `Caretaker` state (lines 185-206): the
originator's dictionary is threaded separately through each operation.
`history` stores the captured snapshots (`create_memento` is
`copy.deepcopy`, the identity at value level); `pos` is
`self._current_pos`. -/
structure CareSt where
  history : List ODict
  pos : Nat
  labels : List String
  counter : Nat

/-- Model of `Caretaker.__init__` (lines 187-205): attaches the caretaker
to the originator (`self._originator.caretaker = self`, which routes
through the `caretaker` property setter into `__setattr__` with the
name-mangled key), captures the initial memento and the initial label.
Returns the caretaker state together with the updated originator
dictionary; `none` on the (unreachable in practice) exception path of the
attach. -/
def mkCaretaker (d : ODict) (ts : String) : Option (CareSt × ODict) :=
  match setattrO d "_Originator__caretaker" (.plain .vcare) with
  | .error _ => none
  | .ok d₁ =>
    some ({ history := [d₁], pos := 0,
            labels := [genLabel 1 ts (some "Initial State")], counter := 1 }, d₁)

/-- Model of `Caretaker.checkpoint` (lines 225-231): capture the current
state, append it and a generated label, and move the cursor to the end. -/
def checkpoint (c : CareSt) (d : ODict) (description : Option String) (ts : String) : CareSt :=
  let history := c.history ++ [d]
  let counter := c.counter + 1
  { history := history, pos := history.length - 1,
    labels := c.labels ++ [genLabel counter ts description], counter := counter }

/-- Model of `Caretaker.undo` (lines 233-240): raises `ValueError` at
`cursor == 0` before any mutation; otherwise decrements the cursor and
restores the memento at the new cursor.  The pair carries the states of
the caretaker and the originator at the moment the call returns or the
exception propagates. -/
def undo (c : CareSt) (d : ODict) : (CareSt × ODict) × Option PyErr :=
  if c.pos = 0 then ((c, d), some .nothingToUndo)
  else
    let c' := { c with pos := c.pos - 1 }
    match c.history.get? (c.pos - 1) with
    | some m =>
      let (d', e) := restoreMemento m
      ((c', d'), e)
    | none => ((c', d), some .indexError)

/-- Model of `Caretaker.redo` (lines 242-249): raises `ValueError` when
the cursor is already at `len(history) - 1`; otherwise increments the
cursor and restores the memento there. -/
def redo (c : CareSt) (d : ODict) : (CareSt × ODict) × Option PyErr :=
  if c.history.length - 1 ≤ c.pos then ((c, d), some .nothingToRedo)
  else
    let c' := { c with pos := c.pos + 1 }
    match c.history.get? (c.pos + 1) with
    | some m =>
      let (d', e) := restoreMemento m
      ((c', d'), e)
    | none => ((c', d), some .indexError)

/-- The durable storage: pairs of file name and pickled snapshot. -/
abbrev Disk := List (String × ODict)

/-- Model of `Caretaker.save_to_disk` (lines 251-265), with `writeOk`
abstracting whether the `open`/`pickle.dump` call succeeds.  The source
appends the label, appends the memento to `history` and moves the cursor
to the end BEFORE attempting the write, and performs no rollback when the
write raises, so the mutated caretaker state is returned on both paths. -/
def saveToDisk (c : CareSt) (d : ODict) (disk : Disk) (filename ts : String)
    (writeOk : Bool) : (CareSt × Disk) × Option PyErr :=
  let fname := filename ++ ".pickle"
  let counter := c.counter + 1
  let labels := c.labels ++ [genLabel counter ts (some ("Saved to Disk: " ++ fname))]
  let history := c.history ++ [d]
  let c' : CareSt := { history := history, pos := history.length - 1,
                       labels := labels, counter := counter }
  if writeOk then ((c', disk ++ [(fname, d)]), none)
  else ((c', disk), some .osError)

/-- Model of `Caretaker.load_from_disk` (lines 267-277): `entry` is the
pickled snapshot when the file exists (`filepath.is_file()`), `none`
otherwise.  The snapshot is restored first; on success it is appended to
`history` with a label and the cursor moves to the end. -/
def loadFromDisk (c : CareSt) (d : ODict) (entry : Option ODict) (fname ts : String) :
    (CareSt × ODict) × Option PyErr :=
  match entry with
  | none => ((c, d), some .fileNotFound)
  | some m =>
    let (d', e) := restoreMemento m
    match e with
    | some err => ((c, d'), some err)
    | none =>
      let history := c.history ++ [m]
      let counter := c.counter + 1
      (({ history := history, pos := history.length - 1,
          labels := c.labels ++ [genLabel counter ts (some ("Loaded from Disk: " ++ fname))],
          counter := counter }, d'), none)

/-- The C3 failing run: a caretaker with one checkpointed state calls
`save_to_disk("doc")` on a fresh originator state and the write fails
(`writeOk = false`, an `OSError` from `open`/`pickle.dump`). -/
def c3run : (CareSt × Disk) × Option PyErr :=
  saveToDisk ⟨[[("t", PVal.vstr "a")]], 0, ["l0"], 1⟩
    [("t", PVal.vstr "b")] [] "doc" "ts" false

/-- The caretaker invariant of the claims: the label list parallels the
history, and the cursor stays inside `[0, len(history) - 1]`. -/
def CaretakerInv (c : CareSt) : Prop :=
  c.labels.length = c.history.length ∧ c.pos < c.history.length

/-- Well-formedness of an originator dictionary as produced by the
program: unique keys and no binding for the (never created) literal
attribute name `"_readonly"`. -/
def WfDict (d : ODict) : Prop :=
  (dictKeys d).Nodup ∧ "_readonly" ∉ dictKeys d

instance (d : ODict) : Decidable (WfDict d) := by
  unfold WfDict; infer_instance

/-- Calling `Caretaker.undo` `k` times in a row, stopping at the first
exception. -/
def undoN : Nat → CareSt → ODict → (CareSt × ODict) × Option PyErr
  | 0, c, d => ((c, d), none)
  | k + 1, c, d =>
    let r := undo c d
    match r.2 with
    | some e => (r.1, some e)
    | none => undoN k r.1.1 r.1.2

/-- Calling `Caretaker.redo` `k` times in a row, stopping at the first
exception. -/
def redoN : Nat → CareSt → ODict → (CareSt × ODict) × Option PyErr
  | 0, c, d => ((c, d), none)
  | k + 1, c, d =>
    let r := redo c d
    match r.2 with
    | some e => (r.1, some e)
    | none => redoN k r.1.1 r.1.2

/-- A sequence of `checkpoint` calls; `states.get i` is the originator
dictionary current at the time of the `i`-th call. -/
def runCheckpoints (c : CareSt) (states : List ODict) (ts : String) : CareSt :=
  states.foldl (fun acc s => checkpoint acc s none ts) c

/-! ## Heap model

Python objects live on a heap of numbered addresses; `copy.deepcopy` is a
memoised graph copy (the memo closes reference cycles such as
originator ↔ caretaker), bounded by fuel because the embedding is a total
function.  Identity claims (C2, C6, C10) are settled in this model. -/

/-- A Python value as stored in an object field: immediate scalars, the
readonly name-set, `None`, or a reference to a heap object. -/
inductive HVal where
  | hint (n : Int)
  | hstr (s : String)
  | hbool (b : Bool)
  | hnone
  | hset (ss : List String)
  | href (a : Nat)
deriving DecidableEq

/-- A heap object: an `Originator` (represented by its `__dict__`), a
`Caretaker` (`_history` is a list of memento addresses, `_current_pos`,
`_labels`, `_label_counter`, `_originator`), or a `Memento` (its
`_state`). -/
inductive HObj where
  | orig (d : List (String × HVal))
  | care (history : List Nat) (pos : Nat) (labels : List String)
      (counter : Nat) (origRef : Nat)
  | mem (state : HVal)
deriving DecidableEq

/-- Lookup in a list of bindings, first binding wins. -/
def findObj : List (Nat × HObj) → Nat → Option HObj
  | [], _ => none
  | (b, o) :: rest, a => if b = a then some o else findObj rest a

/-- The heap: object store plus allocation counter. -/
structure Heap where
  objs : List (Nat × HObj)
  next : Nat
deriving DecidableEq

def Heap.find (h : Heap) (a : Nat) : Option HObj := findObj h.objs a

/-- Overwrite the object at an existing address (in-place mutation). -/
def Heap.set (h : Heap) (a : Nat) (o : HObj) : Heap := ⟨(a, o) :: h.objs, h.next⟩

/-- Allocate a fresh object. -/
def Heap.alloc (h : Heap) (o : HObj) : Heap × Nat :=
  (⟨(h.next, o) :: h.objs, h.next + 1⟩, h.next)

/-- The deepcopy memo: maps source addresses to their copies. -/
abbrev Memo := List (Nat × Nat)

def lookupMemo : Memo → Nat → Option Nat
  | [], _ => none
  | (a, b) :: rest, x => if a = x then some b else lookupMemo rest x

/-- The type of a one-value copier. -/
abbrev CopyFn := Heap → Memo → HVal → Option (Heap × Memo × HVal)

/-- Deepcopy of a dictionary's entries, in order, threading heap and memo. -/
def copyEntriesWith (cv : CopyFn) : Heap → Memo → List (String × HVal) →
    Option (Heap × Memo × List (String × HVal))
  | h, mm, [] => some (h, mm, [])
  | h, mm, (k, v) :: rest =>
    match cv h mm v with
    | none => none
    | some (h₁, mm₁, v₁) =>
      match copyEntriesWith cv h₁ mm₁ rest with
      | none => none
      | some (h₂, mm₂, rest₂) => some (h₂, mm₂, (k, v₁) :: rest₂)

/-- Deepcopy of a list of object references (the caretaker's `_history`). -/
def copyAddrsWith (cv : CopyFn) : Heap → Memo → List Nat →
    Option (Heap × Memo × List Nat)
  | h, mm, [] => some (h, mm, [])
  | h, mm, a :: rest =>
    match cv h mm (.href a) with
    | some (h₁, mm₁, .href b) =>
      match copyAddrsWith cv h₁ mm₁ rest with
      | none => none
      | some (h₂, mm₂, rest₂) => some (h₂, mm₂, b :: rest₂)
    | _ => none

/-- Deepcopy of one object's contents, given a copier for its fields. -/
def copyObjWith (cv : CopyFn) (h : Heap) (mm : Memo) :
    HObj → Option (Heap × Memo × HObj)
  | .orig d =>
    match copyEntriesWith cv h mm d with
    | none => none
    | some (h₁, mm₁, d₁) => some (h₁, mm₁, .orig d₁)
  | .care hist pos labels counter oref =>
    match copyAddrsWith cv h mm hist with
    | none => none
    | some (h₁, mm₁, hist₁) =>
      match cv h₁ mm₁ (.href oref) with
      | some (h₂, mm₂, .href oref₂) =>
        some (h₂, mm₂, .care hist₁ pos labels counter oref₂)
      | _ => none
  | .mem st =>
    match cv h mm st with
    | none => none
    | some (h₁, mm₁, st₁) => some (h₁, mm₁, .mem st₁)

/-- Model of `copy.deepcopy`: scalars are returned as they are; a
reference found in the memo maps to the recorded copy (this is what
closes cycles); otherwise a fresh address is allocated, registered in the
memo before the fields are copied (exactly as `copy.deepcopy` registers
the new object in its memo before populating it), and then overwritten
with the copied contents.  Fuel bounds the recursion depth; every
terminating Python run corresponds to a large-enough fuel. -/
def copyVal : Nat → CopyFn
  | 0 => fun h mm v =>
    match v with
    | .href a =>
      match lookupMemo mm a with
      | some b => some (h, mm, .href b)
      | none => none
    | v => some (h, mm, v)
  | fuel + 1 => fun h mm v =>
    match v with
    | .href a =>
      match lookupMemo mm a with
      | some b => some (h, mm, .href b)
      | none =>
        match h.find a with
        | none => none
        | some ob =>
          let b := h.next
          let h₁ : Heap := ⟨(b, HObj.orig []) :: h.objs, b + 1⟩
          match copyObjWith (copyVal fuel) h₁ ((a, b) :: mm) ob with
          | none => none
          | some (h₂, mm₂, ob₂) => some (h₂.set b ob₂, mm₂, .href b)
    | v => some (h, mm, v)

/-- Model of `Originator.create_memento` (lines 132-134):
`Memento(copy.deepcopy(self))`. -/
def createMementoH (fuel : Nat) (h : Heap) (a : Nat) : Option (Heap × Nat) :=
  match copyVal fuel h [] (.href a) with
  | some (h₁, _, .href r) =>
    let al := h₁.alloc (.mem (.href r))
    some (al.1, al.2)
  | _ => none

/-- Model of `Memento.get_snapshot` (lines 28-30): a fresh deep copy of
the stored state on every call. -/
def getSnapshotH (fuel : Nat) (h : Heap) (m : Nat) : Option (Heap × HVal) :=
  match h.find m with
  | some (.mem st) =>
    match copyVal fuel h [] st with
    | none => none
    | some (h₁, _, st₁) => some (h₁, st₁)
  | _ => none

def lookupH : List (String × HVal) → String → Option HVal
  | [], _ => none
  | (k, v) :: rest, key => if k = key then some v else lookupH rest key

def setattrRawH : List (String × HVal) → String → HVal → List (String × HVal)
  | [], key, v => [(key, v)]
  | (k, w) :: rest, key, v =>
    if k = key then (k, v) :: rest else (k, w) :: setattrRawH rest key v

/-- The `__dict__` of the originator object at an address. -/
def dictOf (h : Heap) (a : Nat) : Option (List (String × HVal)) :=
  match h.find a with
  | some (.orig d) => some d
  | _ => none

/-- Heap-level model of `Originator.__setattr__` for plain (non-`Readonly`)
values — the only kind that flows through the paths modelled on the heap
(`restore_memento` and `set_state` with already-unwrapped values).  The
readonly guard is the same mistaken `hasattr(self, "_readonly")` probe as
in the value model. -/
def heapSetattr (h : Heap) (a : Nat) (key : String) (v : HVal) : Except PyErr Heap :=
  match h.find a with
  | some (.orig d) =>
    match (if (lookupH d "_readonly").isSome then
        match lookupH d "_Originator__readonly" with
        | some (.hset ss) =>
          if key ∈ ss then Except.error PyErr.readonlyViolation else .ok ()
        | some _ => .error .typeError
        | none => .error .attributeNotFound
      else (.ok () : Except PyErr Unit)) with
    | .error e => .error e
    | .ok _ => .ok (h.set a (.orig (setattrRawH d key v)))
  | _ => .error .attributeNotFound

/-- Whether a value is a reference to an `Originator` instance
(`isinstance(value, iOriginator)`). -/
def isOrigRef (h : Heap) : HVal → Bool
  | .href x =>
    match h.find x with
    | some (.orig _) => true
    | _ => false
  | _ => false

/-- The entry loop of `_recursive_restore` over the snapshot dictionary:
when the snapshot value is an `iOriginator` and the (clear-then-rebuilt)
target already holds one under the same key, the code calls the undefined
name `recursive_restore` — a `NameError`; otherwise
`setattr(target, key, copy.deepcopy(value))`.  `none` means the fuel ran
out (a model artifact, not a Python outcome). -/
def restoreEntriesH (fuel : Nat) : Heap → Nat → List (String × HVal) →
    Option (Except PyErr Heap)
  | h, _, [] => some (.ok h)
  | h, a, (k, v) :: rest =>
    if isOrigRef h v && (match dictOf h a with
        | some td =>
          match lookupH td k with
          | some w => isOrigRef h w
          | none => false
        | none => false) then
      some (.error .nameErr)
    else
      match copyVal fuel h [] v with
      | none => none
      | some (h₁, _, v₁) =>
        match heapSetattr h₁ a k v₁ with
        | .error e => some (.error e)
        | .ok h₂ => restoreEntriesH fuel h₂ a rest

/-- Heap-level model of `Originator.restore_memento` (lines 136-154):
clear `self.__dict__`, materialise the snapshot with `get_snapshot`
(a deep copy), then run `_recursive_restore` over its entries. -/
def restoreMementoH (fuel : Nat) (h : Heap) (a : Nat) (m : Nat) :
    Option (Except PyErr Heap) :=
  match h.find m with
  | some (.mem st) =>
    match copyVal fuel (h.set a (.orig [])) [] st with
    | none => none
    | some (h₁, _, .href r) =>
      match dictOf h₁ r with
      | some sd => restoreEntriesH fuel h₁ a sd
      | none => some (.error .typeError)
    | some _ => some (.error .typeError)
  | _ => some (.error .typeError)

/-- Heap-level model of `Caretaker.checkpoint` (lines 225-231). -/
def checkpointH (fuel : Nat) (h : Heap) (c : Nat) (description : Option String)
    (ts : String) : Option Heap :=
  match h.find c with
  | some (.care hist _pos labels counter oref) =>
    match createMementoH fuel h oref with
    | none => none
    | some (h₁, m) =>
      some (h₁.set c (.care (hist ++ [m]) ((hist ++ [m]).length - 1)
        (labels ++ [genLabel (counter + 1) ts description]) (counter + 1) oref))
  | _ => none

/-- Heap-level model of `Caretaker.undo` (lines 233-240): cursor check,
cursor decrement, then restore. -/
def undoH (fuel : Nat) (h : Heap) (c : Nat) : Option (Except PyErr Heap) :=
  match h.find c with
  | some (.care hist pos labels counter oref) =>
    if pos = 0 then some (.error .nothingToUndo)
    else
      match hist.get? (pos - 1) with
      | some m => restoreMementoH fuel
          (h.set c (.care hist (pos - 1) labels counter oref)) oref m
      | none => some (.error .indexError)
  | _ => some (.error .typeError)

def setManyH : Heap → Nat → List (String × HVal) → Except PyErr Heap
  | h, _, [] => .ok h
  | h, a, (k, v) :: rest =>
    match heapSetattr h a k v with
    | .error e => .error e
    | .ok h₁ => setManyH h₁ a rest

/-- Crude rendering of a value for the auto-checkpoint description; the
label text is observational only (cf. `display_history_log`), so the
rendering of nested objects is abstracted. -/
def hvalStr : HVal → String
  | .hint n => toString n
  | .hstr s => s
  | .hbool b => cond b "True" "False"
  | .hnone => "None"
  | .hset ss => toString ss
  | .href _ => "<nested object>"

/-- Heap-level model of `Originator.set_state` (lines 84-93): apply each
keyword through `__setattr__`, then auto-checkpoint through the CURRENT
`self.__caretaker` reference if it is set. -/
def setStateH (fuel : Nat) (h : Heap) (a : Nat) (kwargs : List (String × HVal))
    (ts : String) : Option (Except PyErr Heap) :=
  match setManyH h a kwargs with
  | .error e => some (.error e)
  | .ok h₁ =>
    match dictOf h₁ a with
    | none => some (.error .attributeNotFound)
    | some d =>
      match lookupH d "_Originator__caretaker" with
      | some (.href c) =>
        match checkpointH fuel h₁ c (some ("Updated: " ++
            String.intercalate ", "
              (kwargs.map (fun p => p.1 ++ "=" ++ hvalStr p.2)))) ts with
        | none => none
        | some h₂ => some (.ok h₂)
      | some .hnone => some (.ok h₁)
      | some _ => some (.error .typeError)
      | none => some (.error .attributeNotFound)

/-! ### Copy correctness infrastructure

`copyVal` allocates only fresh addresses, never disturbs existing
objects, and produces a reference-closed region: every reference stored
in a copied object points back into the copied region.  These facts are
packaged in `CvGood` and proved by induction on the fuel. -/

/-- The copy-side addresses recorded in a memo. -/
def memoRange (mm : Memo) : List Nat := mm.map (·.2)

/-- Addresses referenced by a value. -/
def valRefs : HVal → List Nat
  | .href a => [a]
  | _ => []

/-- Addresses referenced by a dictionary's values. -/
def entsRefs : List (String × HVal) → List Nat
  | [] => []
  | p :: rest => valRefs p.2 ++ entsRefs rest

/-- Addresses referenced by an object's fields. -/
def objRefs : HObj → List Nat
  | .orig d => entsRefs d
  | .care hist _ _ _ o => hist ++ [o]
  | .mem st => valRefs st

/-- Every stored address lies below the allocation counter. -/
def WFdom (h : Heap) : Prop := ∀ p ∈ h.objs, p.1 < h.next

instance (h : Heap) : Decidable (WFdom h) := by
  unfold WFdom
  infer_instance

/-- Invariant of an in-progress copy into the region `[W, h.next)`: the
memo's copy addresses lie in the region, and every object at or above `W`
references only region addresses. -/
def RegionInv (W : Nat) (h : Heap) (mm : Memo) : Prop :=
  W ≤ h.next ∧
  (∀ b ∈ memoRange mm, W ≤ b ∧ b < h.next) ∧
  (∀ a ob, W ≤ a → h.find a = some ob → ∀ r ∈ objRefs ob, W ≤ r ∧ r < h.next)

/-- Correctness bundle for a one-value copier: the allocation counter
never decreases; existing objects are untouched; domain well-formedness,
the region invariant and the memo-extension discipline are preserved; the
returned value references only region addresses; and scalars are returned
unchanged without touching heap or memo. -/
def CvGood (cv : CopyFn) : Prop :=
  ∀ h mm v h' mm' v', cv h mm v = some (h', mm', v') →
    h.next ≤ h'.next ∧
    (∀ x, x < h.next → h'.find x = h.find x) ∧
    (WFdom h → WFdom h') ∧
    (∀ W, RegionInv W h mm → WFdom h → RegionInv W h' mm') ∧
    (∃ pre, mm' = pre ++ mm) ∧
    (∀ W, RegionInv W h mm → WFdom h → ∀ r ∈ valRefs v', W ≤ r ∧ r < h'.next) ∧
    (valRefs v = [] → h' = h ∧ mm' = mm ∧ v' = v)

/-- The same bundle for the entries copier, plus key preservation. -/
def EntriesGood (ce : Heap → Memo → List (String × HVal) →
    Option (Heap × Memo × List (String × HVal))) : Prop :=
  ∀ d h mm h' mm' d', ce h mm d = some (h', mm', d') →
    h.next ≤ h'.next ∧
    (∀ x, x < h.next → h'.find x = h.find x) ∧
    (WFdom h → WFdom h') ∧
    (∀ W, RegionInv W h mm → WFdom h → RegionInv W h' mm') ∧
    (∃ pre, mm' = pre ++ mm) ∧
    (∀ W, RegionInv W h mm → WFdom h → ∀ r ∈ entsRefs d', W ≤ r ∧ r < h'.next) ∧
    d'.map (·.1) = d.map (·.1)

/-- The same bundle for the address-list copier, plus length preservation. -/
def NatsGood (ca : Heap → Memo → List Nat → Option (Heap × Memo × List Nat)) : Prop :=
  ∀ l h mm h' mm' l', ca h mm l = some (h', mm', l') →
    h.next ≤ h'.next ∧
    (∀ x, x < h.next → h'.find x = h.find x) ∧
    (WFdom h → WFdom h') ∧
    (∀ W, RegionInv W h mm → WFdom h → RegionInv W h' mm') ∧
    (∃ pre, mm' = pre ++ mm) ∧
    (∀ W, RegionInv W h mm → WFdom h → ∀ r ∈ l', W ≤ r ∧ r < h'.next) ∧
    l'.length = l.length

/-- The same bundle for the object copier, plus shape preservation: an
originator copies to an originator with the same keys in order, and a
caretaker copies to a caretaker with the same cursor, labels, counter and
history length. -/
def ObjGood (co : Heap → Memo → HObj → Option (Heap × Memo × HObj)) : Prop :=
  ∀ ob h mm h' mm' ob', co h mm ob = some (h', mm', ob') →
    h.next ≤ h'.next ∧
    (∀ x, x < h.next → h'.find x = h.find x) ∧
    (WFdom h → WFdom h') ∧
    (∀ W, RegionInv W h mm → WFdom h → RegionInv W h' mm') ∧
    (∃ pre, mm' = pre ++ mm) ∧
    (∀ W, RegionInv W h mm → WFdom h → ∀ r ∈ objRefs ob', W ≤ r ∧ r < h'.next) ∧
    (∀ d, ob = .orig d → ∃ d₂, ob' = .orig d₂ ∧ d₂.map (·.1) = d.map (·.1)) ∧
    (∀ hist pos labels cnt oref, ob = .care hist pos labels cnt oref →
      ∃ hist₂ oref₂, ob' = .care hist₂ pos labels cnt oref₂ ∧
        hist₂.length = hist.length)

/-- Two heaps agree from `W` upward: same allocation counter and the same
objects at every address `≥ W`.  A mutation of the pre-capture world
(addresses `< W`) leaves the snapshot region untouched in this sense. -/
def AgreeFrom (W : Nat) (h₁ h₂ : Heap) : Prop :=
  h₁.next = h₂.next ∧ ∀ x, W ≤ x → h₁.find x = h₂.find x

/-- Frame property for a one-value copier: on two heaps that agree from
`W` upward, copying a value whose references lie at or above `W` runs
identically (same memo, same result value, same writes), and the output
heaps again agree from `W` upward. -/
def CvFrame (cv : CopyFn) : Prop :=
  ∀ W h₁ h₂ mm v, AgreeFrom W h₁ h₂ → RegionInv W h₁ mm → WFdom h₁ → WFdom h₂ →
    (∀ r ∈ valRefs v, W ≤ r) →
    (cv h₁ mm v = none ∧ cv h₂ mm v = none) ∨
    (∃ h₁' h₂' mm' v', cv h₁ mm v = some (h₁', mm', v') ∧
      cv h₂ mm v = some (h₂', mm', v') ∧ AgreeFrom W h₁' h₂')

def EntriesFrame (ce : Heap → Memo → List (String × HVal) →
    Option (Heap × Memo × List (String × HVal))) : Prop :=
  ∀ d W h₁ h₂ mm, AgreeFrom W h₁ h₂ → RegionInv W h₁ mm → WFdom h₁ → WFdom h₂ →
    (∀ r ∈ entsRefs d, W ≤ r) →
    (ce h₁ mm d = none ∧ ce h₂ mm d = none) ∨
    (∃ h₁' h₂' mm' d', ce h₁ mm d = some (h₁', mm', d') ∧
      ce h₂ mm d = some (h₂', mm', d') ∧ AgreeFrom W h₁' h₂')

def NatsFrame (ca : Heap → Memo → List Nat → Option (Heap × Memo × List Nat)) : Prop :=
  ∀ l W h₁ h₂ mm, AgreeFrom W h₁ h₂ → RegionInv W h₁ mm → WFdom h₁ → WFdom h₂ →
    (∀ r ∈ l, W ≤ r) →
    (ca h₁ mm l = none ∧ ca h₂ mm l = none) ∨
    (∃ h₁' h₂' mm' l', ca h₁ mm l = some (h₁', mm', l') ∧
      ca h₂ mm l = some (h₂', mm', l') ∧ AgreeFrom W h₁' h₂')

def ObjFrame (co : Heap → Memo → HObj → Option (Heap × Memo × HObj)) : Prop :=
  ∀ ob W h₁ h₂ mm, AgreeFrom W h₁ h₂ → RegionInv W h₁ mm → WFdom h₁ → WFdom h₂ →
    (∀ r ∈ objRefs ob, W ≤ r) →
    (co h₁ mm ob = none ∧ co h₂ mm ob = none) ∨
    (∃ h₁' h₂' mm' ob', co h₁ mm ob = some (h₁', mm', ob') ∧
      co h₂ mm ob = some (h₂', mm', ob') ∧ AgreeFrom W h₁' h₂')

/-- A client-side mutation of the object world: an attribute write through
`Originator.__setattr__` or an attribute deletion (`delattr`), at any
object address.  A failed write (readonly guard) leaves the heap
unchanged, as the exception propagates before `object.__setattr__`. -/
inductive Mut where
  | set (a : Nat) (k : String) (v : HVal)
  | del (a : Nat) (k : String)

def mutAddr : Mut → Nat
  | .set a _ _ => a
  | .del a _ => a

def applyMut (h : Heap) : Mut → Heap
  | .set a k v =>
    match heapSetattr h a k v with
    | .ok h' => h'
    | .error _ => h
  | .del a k =>
    match h.find a with
    | some (.orig d) => h.set a (.orig (d.filter (fun p => p.1 ≠ k)))
    | _ => h

def applyMuts (h : Heap) (ms : List Mut) : Heap := ms.foldl applyMut h

/-- Concrete failing input for claim C2: a parent originator at address 1
whose attribute `child` references a nested originator at address 0
(both with no caretaker attached), as built by
`parent = Originator(child=Originator(value=10))`. -/
def c2heap : Heap :=
  ⟨[(0, .orig [("_Originator__caretaker", .hnone),
      ("_Originator__readonly", .hset []), ("value", .hint 10)]),
    (1, .orig [("_Originator__caretaker", .hnone),
      ("_Originator__readonly", .hset []), ("child", .href 0)])], 2⟩

/-- The C2 scenario: capture a memento of the parent, mutate the nested
child's `value` to 99 through the pre-existing reference (address 0),
then restore the memento on the parent. -/
def c2run : Option (Except PyErr Heap) :=
  match createMementoH 10 c2heap 1 with
  | some (h₂, m) =>
    match heapSetattr h₂ 0 "value" (.hint 99) with
    | .ok h₃ => restoreMementoH 10 h₃ 1 m
    | .error _ => none
  | none => none

def c2parentChildRef : Option HVal :=
  match c2run with
  | some (.ok h') => (dictOf h' 1).bind (fun d => lookupH d "child")
  | _ => none

def c2oldChildDict : Option (List (String × HVal)) :=
  match c2run with
  | some (.ok h') => dictOf h' 0
  | _ => none

def c2newChildDict : Option (List (String × HVal)) :=
  match c2run with
  | some (.ok h') => dictOf h' 7
  | _ => none

/-- Concrete witness input for C6: a single originator at address 0. -/
def c6h : Heap := ⟨[(0, .orig [("x", .hint 1)])], 1⟩

/-- The heap after `createMementoH 2 c6h 0` (memento at address 2,
snapshot copy at address 1). -/
def c6h2 : Heap := ⟨[(2, HObj.mem (HVal.href 1)),
  (1, HObj.orig [("x", HVal.hint 1)]),
  (1, HObj.orig []),
  (0, HObj.orig [("x", HVal.hint 1)])], 3⟩

/-- The heap after `getSnapshotH 2 c6h2 2` (materialised copy at
address 3). -/
def c6h3 : Heap := ⟨[(3, HObj.orig [("x", HVal.hint 1)]),
  (3, HObj.orig []),
  (2, HObj.mem (HVal.href 1)),
  (1, HObj.orig [("x", HVal.hint 1)]),
  (1, HObj.orig []),
  (0, HObj.orig [("x", HVal.hint 1)])], 4⟩

def c10h : Heap :=
  ⟨[(0, .orig [("_Originator__caretaker", .href 1),
      ("_Originator__readonly", .hset ["k"]), ("x", .hint 2)]),
    (1, .care [4] 1 ["l1"] 1 0),
    (2, .orig [("_Originator__caretaker", .href 3),
      ("_Originator__readonly", .hset ["k"]), ("x", .hint 1)]),
    (3, .care [] 0 [] 0 2),
    (4, .mem (.href 2))], 5⟩

/-- The heap after `undo`: the originator at 0 is rebuilt from the
snapshot, its caretaker link now the detached copy at 7. -/
def c10h3 : Heap :=
  ⟨[(0, .orig [("_Originator__caretaker", .href 7),
      ("_Originator__readonly", .hset ["k"]), ("x", .hint 1)]),
    (0, .orig [("_Originator__caretaker", .href 7),
      ("_Originator__readonly", .hset ["k"])]),
    (0, .orig [("_Originator__caretaker", .href 7)]),
    (7, .care [] 0 [] 0 8),
    (8, .orig [("_Originator__caretaker", .href 7),
      ("_Originator__readonly", .hset ["k"]), ("x", .hint 1)]),
    (8, .orig []),
    (7, .orig []),
    (5, .orig [("_Originator__caretaker", .href 6),
      ("_Originator__readonly", .hset ["k"]), ("x", .hint 1)]),
    (6, .care [] 0 [] 0 5),
    (6, .orig []),
    (5, .orig []),
    (0, .orig []),
    (1, .care [4] 0 ["l1"] 1 0),
    (0, .orig [("_Originator__caretaker", .href 1),
      ("_Originator__readonly", .hset ["k"]), ("x", .hint 2)]),
    (1, .care [4] 1 ["l1"] 1 0),
    (2, .orig [("_Originator__caretaker", .href 3),
      ("_Originator__readonly", .hset ["k"]), ("x", .hint 1)]),
    (3, .care [] 0 [] 0 2),
    (4, .mem (.href 2))], 9⟩

/-- The heap after a further `set_state(x=7)`: the auto-checkpoint
appended memento 11 to the detached caretaker at 7; the original
caretaker at 1 is untouched. -/
def c10h4 : Heap :=
  ⟨[(7, .care [11] 0 ["Memento: 001 T: Updated: x=7"] 1 8),
    (11, .mem (.href 9)),
    (9, .orig [("_Originator__caretaker", .href 10),
      ("_Originator__readonly", .hset ["k"]), ("x", .hint 1)]),
    (10, .care [] 0 [] 0 9),
    (10, .orig []),
    (9, .orig []),
    (0, .orig [("_Originator__caretaker", .href 7),
      ("_Originator__readonly", .hset ["k"]), ("x", .hint 7)]),
    (0, .orig [("_Originator__caretaker", .href 7),
      ("_Originator__readonly", .hset ["k"]), ("x", .hint 1)]),
    (0, .orig [("_Originator__caretaker", .href 7),
      ("_Originator__readonly", .hset ["k"])]),
    (0, .orig [("_Originator__caretaker", .href 7)]),
    (7, .care [] 0 [] 0 8),
    (8, .orig [("_Originator__caretaker", .href 7),
      ("_Originator__readonly", .hset ["k"]), ("x", .hint 1)]),
    (8, .orig []),
    (7, .orig []),
    (5, .orig [("_Originator__caretaker", .href 6),
      ("_Originator__readonly", .hset ["k"]), ("x", .hint 1)]),
    (6, .care [] 0 [] 0 5),
    (6, .orig []),
    (5, .orig []),
    (0, .orig []),
    (1, .care [4] 0 ["l1"] 1 0),
    (0, .orig [("_Originator__caretaker", .href 1),
      ("_Originator__readonly", .hset ["k"]), ("x", .hint 2)]),
    (1, .care [4] 1 ["l1"] 1 0),
    (2, .orig [("_Originator__caretaker", .href 3),
      ("_Originator__readonly", .hset ["k"]), ("x", .hint 1)]),
    (3, .care [] 0 [] 0 2),
    (4, .mem (.href 2))], 12⟩

theorem dictKeys_append (a b : ODict) : dictKeys (a ++ b) = dictKeys a ++ dictKeys b :=
  List.map_append _ a b

theorem lookupD_eq_none_of_not_mem {d : ODict} {k : String} (h : k ∉ dictKeys d) :
    lookupD d k = none := by
  induction d with
  | nil => rfl
  | cons p rest ih =>
    obtain ⟨p₁, p₂⟩ := p
    simp only [dictKeys, List.map_cons, List.mem_cons, not_or] at h
    have hne : p₁ ≠ k := fun hh => h.1 hh.symm
    simp only [lookupD, if_neg hne]
    exact ih h.2

theorem pyHasattr_eq_false_of_not_mem {d : ODict} {k : String} (h : k ∉ dictKeys d) :
    pyHasattr d k = false := by
  simp [pyHasattr, lookupD_eq_none_of_not_mem h]

theorem setattrRaw_of_not_mem {d : ODict} {k : String} {v : PVal} (h : k ∉ dictKeys d) :
    setattrRaw d k v = d ++ [(k, v)] := by
  induction d with
  | nil => rfl
  | cons p rest ih =>
    obtain ⟨p₁, p₂⟩ := p
    simp only [dictKeys, List.map_cons, List.mem_cons, not_or] at h
    have hne : p₁ ≠ k := fun hh => h.1 hh.symm
    simp only [setattrRaw, if_neg hne, List.cons_append]
    rw [ih h.2]

theorem setattrO_plain_of_wf {d : ODict} {k : String} {v : PVal}
    (h1 : "_readonly" ∉ dictKeys d) (h2 : k ∉ dictKeys d) :
    setattrO d k (.plain v) = .ok (d ++ [(k, v)]) := by
  simp [setattrO, pyHasattr_eq_false_of_not_mem h1, setattrRaw_of_not_mem h2]

/-- On a snapshot whose keys are unique and do not include the literal name
`"_readonly"`, the recursive restore loop rebuilds the snapshot exactly and
raises nothing: the accumulated target never holds the processed key, so
the nested-`iOriginator` branch (the one that would call the undefined
`recursive_restore`) is unreachable. -/
theorem restoreFrom_of_wf :
    ∀ rest tgt : ODict, (dictKeys (tgt ++ rest)).Nodup →
      "_readonly" ∉ dictKeys (tgt ++ rest) →
      restoreFrom tgt rest = (tgt ++ rest, none) := by
  intro rest
  induction rest with
  | nil => intro tgt _ _; simp [restoreFrom]
  | cons p r ih =>
    intro tgt hnd hro
    obtain ⟨k, v⟩ := p
    have hknotin : k ∉ dictKeys tgt := by
      rw [dictKeys_append] at hnd
      intro hmem
      have hdisj := (List.nodup_append.mp hnd).2.2
      exact hdisj hmem (by simp [dictKeys])
    have hronotin_tgt : "_readonly" ∉ dictKeys tgt := by
      rw [dictKeys_append] at hro
      exact fun hmem => hro (List.mem_append_left _ hmem)
    have hlk : lookupD tgt k = none := lookupD_eq_none_of_not_mem hknotin
    have hcond : (isObjV v && match lookupD tgt k with
        | some w => isObjV w | none => false) = false := by
      rw [hlk]; simp
    rw [restoreFrom, if_neg (by simp [hcond]), setattrO_plain_of_wf hronotin_tgt hknotin]
    have hassoc : tgt ++ (k, v) :: r = (tgt ++ [(k, v)]) ++ r := by simp
    rw [hassoc] at hnd hro ⊢
    exact ih (tgt ++ [(k, v)]) hnd hro

/-- Restoring a well-formed snapshot succeeds and reproduces it exactly. -/
theorem restoreMemento_of_wf {m : ODict} (h : WfDict m) :
    restoreMemento m = (m, none) := by
  have := restoreFrom_of_wf m [] (by simpa using h.1) (by simpa using h.2)
  simpa [restoreMemento] using this

theorem setattrRaw_keys_subset (d : ODict) (k : String) (v : PVal) :
    dictKeys (setattrRaw d k v) ⊆ k :: dictKeys d := by
  induction d with
  | nil => simp [setattrRaw, dictKeys]
  | cons p rest ih =>
    obtain ⟨p₁, p₂⟩ := p
    by_cases hpk : p₁ = k
    · subst hpk; simp [setattrRaw, dictKeys]
    · intro x hx
      simp only [setattrRaw, if_neg hpk, dictKeys, List.map_cons, List.mem_cons] at hx
      simp only [dictKeys, List.map_cons, List.mem_cons]
      rcases hx with hx | hx
      · tauto
      · have := ih hx
        simp only [dictKeys, List.mem_cons] at this
        tauto

theorem setattrO_keys_subset {d d' : ODict} {k : String} {v : SetVal}
    (h : setattrO d k v = .ok d') :
    dictKeys d' ⊆ k :: "_Originator__readonly" :: dictKeys d := by
  unfold setattrO at h
  split at h
  · exact absurd h (by simp)
  · split at h
    · rename_i w
      split at h
      · exact absurd h (by simp)
      · rename_i ss _
        simp only [Except.ok.injEq] at h
        subst h
        intro x hx
        have h1 := setattrRaw_keys_subset (setattrRaw d "_Originator__readonly"
          (.vset (if k ∈ ss then ss else ss ++ [k]))) k w hx
        simp only [List.mem_cons] at h1 ⊢
        rcases h1 with h1 | h1
        · tauto
        · have h2 := setattrRaw_keys_subset d "_Originator__readonly" _ h1
          simp only [List.mem_cons] at h2
          tauto
    · rename_i w
      simp only [Except.ok.injEq] at h
      subst h
      intro x hx
      have := setattrRaw_keys_subset d k w hx
      simp only [List.mem_cons] at this ⊢
      tauto

theorem setattrO_plain_of_no_ro {d : ODict} {k : String} {v : PVal}
    (h1 : "_readonly" ∉ dictKeys d) :
    setattrO d k (.plain v) = .ok (setattrRaw d k v) := by
  simp [setattrO, pyHasattr_eq_false_of_not_mem h1]

theorem setattrO_plain_keys_subset {d d' : ODict} {k : String} {w : PVal}
    (h : setattrO d k (.plain w) = .ok d') :
    dictKeys d' ⊆ k :: dictKeys d := by
  unfold setattrO at h
  split at h
  · exact absurd h (by simp)
  · simp only [Except.ok.injEq] at h
    subst h
    exact setattrRaw_keys_subset d k w

/-- The recursive restore loop only ever produces keys drawn from the
target accumulated so far and from the snapshot. -/
theorem restoreFrom_keys_subset :
    ∀ rest tgt : ODict, dictKeys (restoreFrom tgt rest).1 ⊆ dictKeys tgt ++ dictKeys rest := by
  intro rest
  induction rest with
  | nil => intro tgt; simp [restoreFrom]
  | cons p r ih =>
    intro tgt
    obtain ⟨k, v⟩ := p
    rw [restoreFrom]
    split
    · intro x hx; exact List.mem_append_left _ hx
    · split
      · rename_i e _
        intro x hx; exact List.mem_append_left _ hx
      · rename_i tgt' heq
        intro x hx
        have h1 := ih tgt' hx
        rcases List.mem_append.mp h1 with h1 | h1
        · have h2 := setattrO_plain_keys_subset heq h1
          rcases List.mem_cons.mp h2 with h2 | h2
          · subst h2
            refine List.mem_append_right _ ?_
            simp [dictKeys]
          · exact List.mem_append_left _ h2
        · refine List.mem_append_right _ ?_
          simp only [dictKeys, List.map_cons, List.mem_cons]
          exact Or.inr h1

theorem setattrRaw_keys_eq (d : ODict) (k : String) (v : PVal) :
    dictKeys (setattrRaw d k v) =
      if k ∈ dictKeys d then dictKeys d else dictKeys d ++ [k] := by
  induction d with
  | nil => simp [setattrRaw, dictKeys]
  | cons p rest ih =>
    obtain ⟨p₁, p₂⟩ := p
    by_cases hpk : p₁ = k
    · subst hpk
      simp [setattrRaw, dictKeys]
    · have hne : k ≠ p₁ := fun hh => hpk hh.symm
      simp only [setattrRaw, if_neg hpk, dictKeys, List.map_cons] at ih ⊢
      rw [ih]
      by_cases hk : k ∈ List.map (fun x => x.1) rest
      · simp [hk, hne]
      · simp [hk, hne]

/-- Setting a fresh or existing attribute with a plain value preserves
dictionary well-formedness, provided the key is not the literal name
`"_readonly"`. -/
theorem wf_setattrRaw {d : ODict} {k : String} {v : PVal}
    (hwf : WfDict d) (hk : k ≠ "_readonly") : WfDict (setattrRaw d k v) := by
  obtain ⟨hnd, hro⟩ := hwf
  constructor
  · rw [setattrRaw_keys_eq]
    by_cases hmem : k ∈ dictKeys d
    · simpa [hmem] using hnd
    · simp only [if_neg hmem]
      exact List.Nodup.append hnd (List.nodup_singleton k)
        (by intro x hx hy; simp at hy; subst hy; exact hmem hx)
  · rw [setattrRaw_keys_eq]
    by_cases hmem : k ∈ dictKeys d
    · simpa [hmem] using hro
    · simp only [if_neg hmem, List.mem_append]
      rintro (h | h)
      · exact hro h
      · simp at h; exact hk h.symm

theorem pyHasattr_iff_mem {d : ODict} {k : String} :
    pyHasattr d k = true ↔ k ∈ dictKeys d := by
  induction d with
  | nil => simp [pyHasattr, lookupD, dictKeys]
  | cons p rest ih =>
    obtain ⟨p₁, p₂⟩ := p
    by_cases h : p₁ = k
    · subst h
      simp [pyHasattr, lookupD, dictKeys]
    · have hne : k ≠ p₁ := fun hh => h hh.symm
      simp [pyHasattr, lookupD, h, dictKeys, hne] at ih ⊢
      exact ih

theorem foldl_removeKey (ks : List String) :
    ∀ d : ODict, ks.foldl (fun acc k => removeKey acc k) d =
      d.filter (fun p => decide (p.1 ∉ ks)) := by
  induction ks with
  | nil => intro d; simp
  | cons k ks ih =>
    intro d
    simp only [List.foldl_cons]
    rw [ih (removeKey d k)]
    unfold removeKey
    rw [List.filter_filter]
    refine List.filter_congr ?_
    intro p _
    by_cases h1 : p.1 = k
    · simp [h1]
    · simp [h1]

/-- The deletion helper removes exactly the requested names that are
present and leaves the rest of the dictionary untouched; its success flag
records whether any requested name existed.  The operation is total: no
exception path exists in `delete_state`. -/
theorem deleteState_spec (d : ODict) (args : List String) :
    (deleteState d args).1 = d.filter (fun p => decide (p.1 ∉ args)) ∧
    ((deleteState d args).2 = true ↔ ∃ k ∈ args, k ∈ dictKeys d) := by
  constructor
  · show (((args.filter (fun k => pyHasattr d k)).dedup).foldl
      (fun acc k => removeKey acc k) d) = _
    rw [foldl_removeKey]
    refine List.filter_congr ?_
    intro p hp
    have hhp : pyHasattr d p.1 = true :=
      pyHasattr_iff_mem.mpr (List.mem_map_of_mem (fun x => x.1) hp)
    by_cases hmem : p.1 ∈ args
    · simp [List.mem_dedup, List.mem_filter, hmem, hhp]
    · simp [List.mem_dedup, List.mem_filter, hmem]
  · show (!((args.filter (fun k => pyHasattr d k)).dedup).isEmpty) = true ↔ _
    constructor
    · intro h
      have hne : args.filter (fun k => pyHasattr d k) ≠ [] := by
        intro hnil
        rw [hnil] at h
        simp [List.dedup_nil] at h
      rcases List.exists_mem_of_ne_nil _ hne with ⟨k, hk⟩
      have := List.mem_filter.mp hk
      exact ⟨k, this.1, pyHasattr_iff_mem.mp this.2⟩
    · rintro ⟨k, hk1, hk2⟩
      have hmem : k ∈ (args.filter (fun k => pyHasattr d k)).dedup :=
        List.mem_dedup.mpr (List.mem_filter.mpr ⟨hk1, pyHasattr_iff_mem.mpr hk2⟩)
      cases hdd : (args.filter (fun k => pyHasattr d k)).dedup with
      | nil =>
        rw [hdd] at hmem
        exact absurd hmem (List.not_mem_nil k)
      | cons a l => simp [hdd, List.isEmpty]

/-- Claim C1 (code bug): the readonly guard of `Originator.__setattr__`
tests `hasattr(self, "_readonly")`, but the readonly set is stored under
the name-mangled attribute `"_Originator__readonly"`, so the guard never
fires; moreover `delete_state` performs no readonly check at all.
Evaluated at the failing input `Originator(x=Readonly(5))`: the
constructor records `x` in the readonly set, yet a subsequent plain
assignment `x = 7` succeeds and overwrites the stored value, and
`delete_state("x")` succeeds and removes the attribute — neither raises
`ReadonlyViolation`, contradicting the claim. -/
theorem C1_readonly_not_enforced :
    initDict .vnone [("x", .ro (.vint 5))] =
      .ok [("_Originator__caretaker", .vnone),
           ("_Originator__readonly", .vset ["x"]), ("x", .vint 5)] ∧
    setattrO [("_Originator__caretaker", .vnone),
              ("_Originator__readonly", .vset ["x"]), ("x", .vint 5)]
        "x" (.plain (.vint 7)) =
      .ok [("_Originator__caretaker", .vnone),
           ("_Originator__readonly", .vset ["x"]), ("x", .vint 7)] ∧
    deleteState [("_Originator__caretaker", .vnone),
                 ("_Originator__readonly", .vset ["x"]), ("x", .vint 5)] ["x"] =
      ([("_Originator__caretaker", .vnone),
        ("_Originator__readonly", .vset ["x"])], true) :=
  ⟨rfl, rfl, rfl⟩

/-- Claim C3 (code bug): `Caretaker.save_to_disk` appends the label,
appends the memento to `history` and moves the cursor to the end BEFORE
attempting the `pickle.dump` write, and performs no rollback when the
write raises.  Evaluated at a failing write: the call raises, the disk
is unchanged, yet `history` has gained the unwritten entry and the
cursor points at it — contradicting the claim that a failed
`save_to_disk` leaves no in-memory entry that was not durably written. -/
theorem C3_save_folds_history_before_write :
    c3run.2 = some .osError ∧ c3run.1.2 = [] ∧
    c3run.1.1.history = [[("t", PVal.vstr "a")], [("t", PVal.vstr "b")]] ∧
    c3run.1.1.pos = 1 ∧ c3run.1.1.labels.length = 2 :=
  ⟨rfl, rfl, rfl, rfl, rfl⟩

/-- Claim C5: `undo` at `cursor == 0` fails with the `ValueError`
`"undo: nothing to undo..."` (`NothingToUndo`), `redo` at
`cursor == len(history) - 1` fails with the `ValueError`
`"redo: at newest state already..."` (`NothingToRedo`), and in both
failure cases the caretaker (history, labels, cursor) and the originator
are returned exactly as they were before the call: the guards run before
any mutation. -/
theorem C5_undo_redo_boundary_pure (c : CareSt) (d : ODict) :
    (c.pos = 0 → undo c d = ((c, d), some .nothingToUndo)) ∧
    (c.pos = c.history.length - 1 → redo c d = ((c, d), some .nothingToRedo)) := by
  constructor
  · intro h
    simp [undo, h]
  · intro h
    have : c.history.length - 1 ≤ c.pos := le_of_eq h.symm
    simp [redo, this]

/-- Witness for C5 at a concrete one-entry history. -/
theorem C5_undo_redo_boundary_pure_witness :
    (CareSt.mk [[("a", PVal.vint 1)]] 0 ["l"] 1).pos = 0 ∧
    undo (CareSt.mk [[("a", PVal.vint 1)]] 0 ["l"] 1) [] =
      ((CareSt.mk [[("a", PVal.vint 1)]] 0 ["l"] 1, []), some .nothingToUndo) ∧
    (CareSt.mk [[("a", PVal.vint 1)]] 0 ["l"] 1).pos =
      (CareSt.mk [[("a", PVal.vint 1)]] 0 ["l"] 1).history.length - 1 ∧
    redo (CareSt.mk [[("a", PVal.vint 1)]] 0 ["l"] 1) [] =
      ((CareSt.mk [[("a", PVal.vint 1)]] 0 ["l"] 1, []), some .nothingToRedo) :=
  ⟨rfl, (C5_undo_redo_boundary_pure _ _).1 rfl, rfl,
    (C5_undo_redo_boundary_pure _ _).2 rfl⟩

/-- Claim C7: `restore_memento` clears `self.__dict__` and rebuilds it
from the snapshot alone, so after a completed restore every attribute
name absent from the snapshot is absent from the container — full
replace semantics, not a merge. -/
theorem C7_restore_full_replace (d m d' : ODict)
    (h : restoreMemento m = (d', none)) :
    ∀ k, k ∈ dictKeys d → k ∉ dictKeys m → k ∉ dictKeys d' := by
  intro k _ hkm hk'
  have hsub := restoreFrom_keys_subset m []
  rw [restoreMemento] at h
  rw [h] at hsub
  have := hsub hk'
  simp only [dictKeys, List.map_nil, List.nil_append] at this
  exact hkm this

/-- Witness for C7: a pre-existing attribute `a` disappears after
restoring a snapshot that lacks it. -/
theorem C7_restore_full_replace_witness :
    ("a" : String) ∉ dictKeys [(("b" : String), PVal.vint 2)] :=
  C7_restore_full_replace [("a", PVal.vint 1)] [("b", PVal.vint 2)]
    [("b", PVal.vint 2)] rfl "a" (by simp [dictKeys]) (by simp [dictKeys])

/-- Counterexample to claim C8: deleting a name absent from the container
does not fail with `AttributeNotFound`; `delete_state` filters the
requested names with `hasattr` first, so the absent name is silently
skipped, the call completes normally, the dictionary is unchanged and no
checkpoint is triggered. -/
theorem C8_delete_absent_counterexample :
    deleteState [("a", PVal.vint 1)] ["zzz"] = ([("a", PVal.vint 1)], false) :=
  rfl

/-- Amended claim C8: `delete_state` never raises for absent names; it
removes exactly the requested names that exist and silently skips the
rest, and it reports a deletion (triggering the auto-checkpoint) exactly
when at least one requested name existed.  (The totality of
`deleteState` reflects that no exception path exists in the source.) -/
theorem C8_delete_amended (d : ODict) (args : List String) :
    (deleteState d args).1 = d.filter (fun p => decide (p.1 ∉ args)) ∧
    ((deleteState d args).2 = true ↔ ∃ k ∈ args, k ∈ dictKeys d) :=
  deleteState_spec d args

/-- Claim C9: after `Caretaker.__init__` and after every operation
(`checkpoint`, `undo`, `redo`, `save_to_disk` on both the success and the
failure path, and a completed `load_from_disk`), the label list parallels
the history and the cursor stays within `[0, len(history) - 1]`. -/
theorem C9_caretaker_invariant
    (d : ODict) (ts : String) (c : CareSt) (desc : Option String)
    (disk : Disk) (fname : String) (writeOk : Bool) (entry : Option ODict) :
    (∀ c₀ d₀, mkCaretaker d ts = some (c₀, d₀) → CaretakerInv c₀) ∧
    (CaretakerInv c → CaretakerInv (checkpoint c d desc ts)) ∧
    (CaretakerInv c → CaretakerInv (undo c d).1.1) ∧
    (CaretakerInv c → CaretakerInv (redo c d).1.1) ∧
    (CaretakerInv c → CaretakerInv (saveToDisk c d disk fname ts writeOk).1.1) ∧
    (CaretakerInv c → (loadFromDisk c d entry fname ts).2 = none →
      CaretakerInv (loadFromDisk c d entry fname ts).1.1) := by
  refine ⟨?_, ?_, ?_, ?_, ?_, ?_⟩
  · intro c₀ d₀ hmk
    unfold mkCaretaker at hmk
    split at hmk
    · exact absurd hmk (by simp)
    · simp only [Option.some.injEq, Prod.mk.injEq] at hmk
      obtain ⟨hc, _⟩ := hmk
      subst hc
      exact ⟨rfl, by simp⟩
  · rintro ⟨h1, h2⟩
    constructor <;> simp [checkpoint, h1]
  · rintro ⟨h1, h2⟩
    unfold undo
    split
    · exact ⟨h1, h2⟩
    · rename_i hpos
      split
      · rename_i m hm
        obtain ⟨d', e⟩ : ODict × Option PyErr := restoreMemento m
        refine ⟨h1, ?_⟩
        simp only []
        omega
      · exact ⟨h1, by simp; omega⟩
  · rintro ⟨h1, h2⟩
    unfold redo
    split
    · exact ⟨h1, h2⟩
    · rename_i hpos
      split
      · rename_i m hm
        refine ⟨h1, ?_⟩
        simp only []
        omega
      · exact ⟨h1, by simp; omega⟩
  · rintro ⟨h1, h2⟩
    by_cases hw : writeOk <;>
      simp only [saveToDisk, hw, if_true, if_false] <;>
      exact ⟨by simp [h1], by simp⟩
  · rintro ⟨h1, h2⟩
    intro hok
    cases entry with
    | none => simp [loadFromDisk] at hok
    | some m =>
      unfold loadFromDisk at hok ⊢
      cases hr : restoreMemento m with
      | mk d' e =>
        cases e with
        | some err => simp [hr] at hok
        | none =>
          simp only [hr]
          exact ⟨by simp [h1], by simp⟩

/-- Witness for C9 at a concrete caretaker. -/
theorem C9_caretaker_invariant_witness :
    CaretakerInv (checkpoint (CareSt.mk [[]] 0 ["l"] 1) [] none "t") ∧
    CaretakerInv (undo (CareSt.mk [[]] 0 ["l"] 1) []).1.1 ∧
    CaretakerInv (redo (CareSt.mk [[]] 0 ["l"] 1) []).1.1 ∧
    CaretakerInv (saveToDisk (CareSt.mk [[]] 0 ["l"] 1) [] [] "f" "t" true).1.1 ∧
    CaretakerInv (loadFromDisk (CareSt.mk [[]] 0 ["l"] 1) [] (some []) "f" "t").1.1 := by
  have H := C9_caretaker_invariant [] "t" (CareSt.mk [[]] 0 ["l"] 1) none [] "f" true (some [])
  have hinv : CaretakerInv (CareSt.mk [[]] 0 ["l"] 1) := ⟨rfl, by simp⟩
  exact ⟨H.2.1 hinv, H.2.2.1 hinv, H.2.2.2.1 hinv, H.2.2.2.2.1 hinv,
    H.2.2.2.2.2 hinv rfl⟩

theorem undo_step {c : CareSt} {m : ODict} (d : ODict) (hpos : ¬ c.pos = 0)
    (hm : c.history.get? (c.pos - 1) = some m) (hwf : WfDict m) :
    undo c d = (({ c with pos := c.pos - 1 }, m), none) := by
  unfold undo
  rw [if_neg hpos, hm]
  simp only [restoreMemento_of_wf hwf]

theorem redo_step {c : CareSt} {m : ODict} (d : ODict)
    (hpos : ¬ c.history.length - 1 ≤ c.pos)
    (hm : c.history.get? (c.pos + 1) = some m) (hwf : WfDict m) :
    redo c d = (({ c with pos := c.pos + 1 }, m), none) := by
  unfold redo
  rw [if_neg hpos, hm]
  simp only [restoreMemento_of_wf hwf]

theorem undoN_synced :
    ∀ (k : Nat) (c : CareSt) (d : ODict),
      (∀ s ∈ c.history, WfDict s) → k ≤ c.pos → c.pos < c.history.length →
      c.history.get? c.pos = some d →
      ∃ d', c.history.get? (c.pos - k) = some d' ∧
        undoN k c d = (({ c with pos := c.pos - k }, d'), none) := by
  intro k
  induction k with
  | zero =>
    intro c d _ _ _ hd
    obtain ⟨hist, pos, labels, cnt⟩ := c
    exact ⟨d, by simpa using hd, by simp [undoN]⟩
  | succ k ih =>
    intro c d hwf hk hlt hd
    have hpos : ¬ c.pos = 0 := by omega
    have hm : ∃ m, c.history.get? (c.pos - 1) = some m := by
      cases hget : c.history.get? (c.pos - 1) with
      | none =>
        rw [List.get?_eq_none] at hget
        omega
      | some m => exact ⟨m, rfl⟩
    obtain ⟨m, hm⟩ := hm
    have hmmem : m ∈ c.history := List.get?_mem hm
    have hstep := undo_step d hpos hm (hwf m hmmem)
    have hrec := ih { c with pos := c.pos - 1 } m
      (by simpa using hwf) (by simp; omega) (by simp; omega) (by simpa using hm)
    obtain ⟨d', hd', hrun⟩ := hrec
    refine ⟨d', ?_, ?_⟩
    · simp only [] at hd'
      have : c.pos - 1 - k = c.pos - (k + 1) := by omega
      rwa [this] at hd'
    · show (match (undo c d).2 with
        | some e => ((undo c d).1, some e)
        | none => undoN k (undo c d).1.1 (undo c d).1.2) = _
      rw [hstep]
      simp only []
      rw [hrun]
      obtain ⟨hist, pos, labels, cnt⟩ := c
      simp only []
      have : pos - 1 - k = pos - (k + 1) := by omega
      rw [this]

theorem redoN_synced :
    ∀ (k : Nat) (c : CareSt) (d : ODict),
      (∀ s ∈ c.history, WfDict s) → c.pos + k < c.history.length →
      c.history.get? c.pos = some d →
      ∃ d', c.history.get? (c.pos + k) = some d' ∧
        redoN k c d = (({ c with pos := c.pos + k }, d'), none) := by
  intro k
  induction k with
  | zero =>
    intro c d _ _ hd
    obtain ⟨hist, pos, labels, cnt⟩ := c
    exact ⟨d, by simpa using hd, by simp [redoN]⟩
  | succ k ih =>
    intro c d hwf hlt hd
    have hpos : ¬ c.history.length - 1 ≤ c.pos := by omega
    have hm : ∃ m, c.history.get? (c.pos + 1) = some m := by
      cases hget : c.history.get? (c.pos + 1) with
      | none =>
        rw [List.get?_eq_none] at hget
        omega
      | some m => exact ⟨m, rfl⟩
    obtain ⟨m, hm⟩ := hm
    have hmmem : m ∈ c.history := List.get?_mem hm
    have hstep := redo_step d hpos hm (hwf m hmmem)
    have hrec := ih { c with pos := c.pos + 1 } m
      (by simpa using hwf) (by simp; omega) (by simpa using hm)
    obtain ⟨d', hd', hrun⟩ := hrec
    refine ⟨d', ?_, ?_⟩
    · simp only [] at hd'
      have : c.pos + 1 + k = c.pos + (k + 1) := by omega
      rwa [this] at hd'
    · show (match (redo c d).2 with
        | some e => ((redo c d).1, some e)
        | none => redoN k (redo c d).1.1 (redo c d).1.2) = _
      rw [hstep]
      simp only []
      rw [hrun]
      obtain ⟨hist, pos, labels, cnt⟩ := c
      simp only []
      have : pos + 1 + k = pos + (k + 1) := by omega
      rw [this]

theorem runCheckpoints_spec (ts : String) :
    ∀ (ds : List ODict) (c : CareSt), ds ≠ [] →
      (runCheckpoints c ds ts).history = c.history ++ ds ∧
      (runCheckpoints c ds ts).pos = c.history.length + ds.length - 1 := by
  intro ds
  induction ds with
  | nil => intro c h; exact absurd rfl h
  | cons s r ih =>
    intro c _
    cases r with
    | nil =>
      constructor
      · simp [runCheckpoints, checkpoint]
      · simp [runCheckpoints, checkpoint]
    | cons s₂ r₂ =>
      have hne : s₂ :: r₂ ≠ ([] : List ODict) := by simp
      have hfold : runCheckpoints c (s :: s₂ :: r₂) ts =
          runCheckpoints (checkpoint c s none ts) (s₂ :: r₂) ts := rfl
      obtain ⟨ih1, ih2⟩ := ih (checkpoint c s none ts) hne
      constructor
      · rw [hfold, ih1]
        simp [checkpoint]
      · rw [hfold, ih2]
        simp [checkpoint]
        omega

theorem getLast?_eq_get? {α : Type} (l : List α) : l.getLast? = l.get? (l.length - 1) := by
  induction l with
  | nil => rfl
  | cons a t ih =>
    cases t with
    | nil => rfl
    | cons b t2 =>
      rw [List.getLast?_cons_cons, ih]
      rfl

/-- Claim C4: for every manager freshly bound to a container, after a
sequence of `n ≥ 1` `checkpoint` calls (capturing the states `ds`, the
last of which, `dn`, is the container's state immediately before the
first `undo`), `undo` applied `n` times followed by `redo` applied `n`
times succeeds and returns the container's user-visible attribute state
to exactly `dn`.  (Internal bookkeeping keys are excluded from the
comparison: an actual restore installs a detached deep copy of the
caretaker under `_Originator__caretaker`, see claim C10.) -/
theorem C4_undo_redo_roundtrip
    (n : Nat) (hn : 1 ≤ n) (d0 : ODict) (ds : List ODict) (ts : String)
    (hlen : ds.length = n)
    (hwf0 : WfDict d0) (hwfs : ∀ s ∈ ds, WfDict s)
    (c0 : CareSt) (datt : ODict) (hmk : mkCaretaker d0 ts = some (c0, datt))
    (dn : ODict) (hlast : ds.getLast? = some dn) :
    ∃ cu du cr dr,
      undoN n (runCheckpoints c0 ds ts) dn = ((cu, du), none) ∧
      redoN n cu du = ((cr, dr), none) ∧
      userAttrs dr = userAttrs dn := by
  unfold mkCaretaker at hmk
  rw [setattrO_plain_of_no_ro hwf0.2] at hmk
  simp only [Option.some.injEq, Prod.mk.injEq] at hmk
  obtain ⟨hc0, hdatt⟩ := hmk
  subst hc0
  have hwf1 : WfDict (setattrRaw d0 "_Originator__caretaker" PVal.vcare) :=
    wf_setattrRaw hwf0 (by decide)
  have hdsne : ds ≠ [] := by
    intro h
    rw [h] at hlen
    simp at hlen
    omega
  obtain ⟨hhist, hpos⟩ := runCheckpoints_spec ts ds _ hdsne
  set C1 := runCheckpoints
    { history := [setattrRaw d0 "_Originator__caretaker" PVal.vcare], pos := 0,
      labels := [genLabel 1 ts (some "Initial State")], counter := 1 } ds ts with hC1
  have hhistval : C1.history = setattrRaw d0 "_Originator__caretaker" PVal.vcare :: ds := by
    rw [hhist]
    rfl
  have hposval : C1.pos = n := by
    rw [hpos]
    simp [hlen]
  have hlenval : C1.history.length = n + 1 := by
    rw [hhistval]
    simp [hlen]
  have hwfall : ∀ s ∈ C1.history, WfDict s := by
    rw [hhistval]
    intro s hs
    rcases List.mem_cons.mp hs with h | h
    · rw [h]; exact hwf1
    · exact hwfs s h
  have hget0 : C1.history.get? 0 = some (setattrRaw d0 "_Originator__caretaker" PVal.vcare) := by
    rw [hhistval]; rfl
  have hgetn : C1.history.get? n = some dn := by
    rw [hhistval]
    obtain ⟨m, rfl⟩ : ∃ m, n = m + 1 := ⟨n - 1, by omega⟩
    show ds.get? m = some dn
    rw [getLast?_eq_get?] at hlast
    rw [hlen] at hlast
    simpa using hlast
  have hu := undoN_synced n C1 dn hwfall (by omega) (by omega)
    (by rw [hposval]; exact hgetn)
  obtain ⟨du, hdu, hrun1⟩ := hu
  have hposz : C1.pos - n = 0 := by omega
  rw [hposz] at hdu
  have hr := redoN_synced n { C1 with pos := C1.pos - n } du
    (by simpa [hhistval] using hwfall)
    (by simp [hposz, hlenval])
    (by simpa [hposz] using hdu)
  obtain ⟨dr, hdr, hrun2⟩ := hr
  have hidx : C1.pos - n + n = n := by omega
  simp only [hidx] at hdr
  have hdn : dr = dn := by
    rw [hgetn] at hdr
    exact ((Option.some.injEq _ _).mp hdr).symm
  exact ⟨_, _, _, _, hrun1, hrun2, by rw [hdn]⟩

/-- Witness for C4 with one checkpoint on a one-attribute container. -/
theorem C4_undo_redo_roundtrip_witness :
    ∃ cu du cr dr,
      undoN 1 (runCheckpoints
        (CareSt.mk [[("x", PVal.vint 0), ("_Originator__caretaker", PVal.vcare)]] 0
          [genLabel 1 "t" (some "Initial State")] 1)
        [[("x", PVal.vint 1)]] "t") [("x", PVal.vint 1)] = ((cu, du), none) ∧
      redoN 1 cu du = ((cr, dr), none) ∧
      userAttrs dr = userAttrs [("x", PVal.vint 1)] :=
  C4_undo_redo_roundtrip 1 (by decide) [("x", PVal.vint 0)] [[("x", PVal.vint 1)]] "t"
    rfl (by decide) (by intro s hs; simp at hs; subst hs; decide)
    (CareSt.mk [[("x", PVal.vint 0), ("_Originator__caretaker", PVal.vcare)]] 0
      [genLabel 1 "t" (some "Initial State")] 1)
    [("x", PVal.vint 0), ("_Originator__caretaker", PVal.vcare)] rfl
    [("x", PVal.vint 1)] rfl

theorem findObj_some_mem : ∀ {l : List (Nat × HObj)} {a : Nat} {o : HObj},
    findObj l a = some o → (a, o) ∈ l := by
  intro l
  induction l with
  | nil => intro a o h; exact absurd h (by simp [findObj])
  | cons p rest ih =>
    intro a o h
    obtain ⟨b, q⟩ := p
    rw [findObj] at h
    by_cases hb : b = a
    · subst hb
      rw [if_pos rfl] at h
      simp only [Option.some.injEq] at h
      subst h
      exact List.mem_cons_self _ _
    · rw [if_neg hb] at h
      exact List.mem_cons_of_mem _ (ih h)

theorem find_lt_next {h : Heap} (hwf : WFdom h) {a : Nat} {o : HObj}
    (hf : h.find a = some o) : a < h.next :=
  hwf _ (findObj_some_mem hf)

theorem find_none_of_ge {h : Heap} (hwf : WFdom h) {a : Nat}
    (ha : h.next ≤ a) : h.find a = none := by
  cases hf : h.find a with
  | none => rfl
  | some o => exact absurd (find_lt_next hwf hf) (by omega)

theorem find_set_self (h : Heap) (a : Nat) (o : HObj) :
    (h.set a o).find a = some o := by
  simp [Heap.set, Heap.find, findObj]

theorem find_set_ne (h : Heap) {a x : Nat} (o : HObj) (hne : a ≠ x) :
    (h.set a o).find x = h.find x := by
  simp [Heap.set, Heap.find, findObj, hne]

theorem set_next (h : Heap) (a : Nat) (o : HObj) : (h.set a o).next = h.next := rfl

theorem WFdom_set {h : Heap} {a : Nat} {o : HObj} (hwf : WFdom h)
    (ha : a < h.next) : WFdom (h.set a o) := by
  intro p hp
  rcases List.mem_cons.mp hp with h1 | h1
  · subst h1; exact ha
  · exact hwf p h1

theorem lookupMemo_some_mem_range : ∀ {mm : Memo} {a b : Nat},
    lookupMemo mm a = some b → b ∈ memoRange mm := by
  intro mm
  induction mm with
  | nil => intro a b h; exact absurd h (by simp [lookupMemo])
  | cons p rest ih =>
    intro a b h
    obtain ⟨x, y⟩ := p
    rw [lookupMemo] at h
    by_cases hx : x = a
    · rw [if_pos hx] at h
      simp only [Option.some.injEq] at h
      subst h
      simp [memoRange]
    · rw [if_neg hx] at h
      simp only [memoRange, List.map_cons, List.mem_cons]
      exact Or.inr (ih h)

/-- Allocating the placeholder and registering it in the memo preserves
the region invariant. -/
theorem regionInv_alloc {W : Nat} {h : Heap} {mm : Memo} (a : Nat)
    (hinv : RegionInv W h mm) :
    RegionInv W ⟨(h.next, HObj.orig []) :: h.objs, h.next + 1⟩ ((a, h.next) :: mm) := by
  obtain ⟨h1, h2, h3⟩ := hinv
  refine ⟨?_, ?_, ?_⟩
  · show W ≤ h.next + 1
    omega
  · intro b hb
    show W ≤ b ∧ b < h.next + 1
    simp only [memoRange, List.map_cons, List.mem_cons] at hb
    rcases hb with hb | hb
    · subst hb
      exact ⟨h1, by omega⟩
    · have := h2 b hb
      exact ⟨this.1, by omega⟩
  · intro x ob hx hf
    show ∀ r ∈ objRefs ob, W ≤ r ∧ r < h.next + 1
    by_cases hxb : h.next = x
    · have hfind : findObj ((h.next, HObj.orig []) :: h.objs) x = some (HObj.orig []) := by
        simp [findObj, hxb]
      rw [show Heap.find ⟨(h.next, HObj.orig []) :: h.objs, h.next + 1⟩ x =
        findObj ((h.next, HObj.orig []) :: h.objs) x from rfl, hfind] at hf
      simp only [Option.some.injEq] at hf
      subst hf
      intro r hr
      simp [objRefs, entsRefs] at hr
    · have hfind : Heap.find ⟨(h.next, HObj.orig []) :: h.objs, h.next + 1⟩ x = h.find x := by
        simp [Heap.find, findObj, hxb]
      rw [hfind] at hf
      intro r hr
      have := h3 x ob hx hf r hr
      exact ⟨this.1, by omega⟩

theorem WFdom_alloc {h : Heap} (hwf : WFdom h) :
    WFdom ⟨(h.next, HObj.orig []) :: h.objs, h.next + 1⟩ := by
  intro p hp
  rcases List.mem_cons.mp hp with h1 | h1
  · subst h1
    show h.next < h.next + 1
    omega
  · have := hwf p h1
    show p.1 < h.next + 1
    omega

theorem copyVal_prim_eq {f : Nat} {h : Heap} {mm : Memo} {v : HVal}
    (hv : valRefs v = []) : copyVal f h mm v = some (h, mm, v) := by
  cases v <;> cases f <;> first
    | rfl
    | simp [valRefs] at hv

theorem copyVal_hit_eq {f : Nat} {h : Heap} {mm : Memo} {a b : Nat}
    (hm : lookupMemo mm a = some b) :
    copyVal f h mm (.href a) = some (h, mm, .href b) := by
  cases f <;> simp [copyVal, hm]

theorem find_alloc_ne {h : Heap} {x : Nat} (hne : h.next ≠ x) :
    Heap.find ⟨(h.next, HObj.orig []) :: h.objs, h.next + 1⟩ x = h.find x := by
  simp [Heap.find, findObj, hne]

/-- Overwriting an address below the counter with an object whose
references lie in the region preserves the region invariant. -/
theorem regionInv_set {W : Nat} {h : Heap} {mm : Memo} {b : Nat} {ob : HObj}
    (hi : RegionInv W h mm)
    (hrefs : ∀ r ∈ objRefs ob, W ≤ r ∧ r < h.next) :
    RegionInv W (h.set b ob) mm := by
  obtain ⟨h1, h2, h3⟩ := hi
  refine ⟨h1, h2, ?_⟩
  intro x ox hx hf
  show ∀ r ∈ objRefs ox, W ≤ r ∧ r < h.next
  by_cases hxb : b = x
  · subst hxb
    rw [find_set_self] at hf
    simp only [Option.some.injEq] at hf
    subst hf
    exact hrefs
  · rw [find_set_ne _ _ hxb] at hf
    exact h3 x ox hx hf

theorem entriesGood_of {cv : CopyFn} (hcv : CvGood cv) :
    EntriesGood (copyEntriesWith cv) := by
  intro d
  induction d with
  | nil =>
    intro h mm h' mm' d' he
    rw [copyEntriesWith] at he
    simp only [Option.some.injEq, Prod.mk.injEq] at he
    obtain ⟨rfl, rfl, rfl⟩ := he
    refine ⟨le_refl _, fun x _ => rfl, id, fun W hi _ => hi, ⟨[], rfl⟩, ?_, rfl⟩
    intro W _ _ r hr
    simp [entsRefs] at hr
  | cons p rest ih =>
    intro h mm h' mm' d' he
    obtain ⟨k, v⟩ := p
    rw [copyEntriesWith] at he
    split at he
    · exact absurd he (by simp)
    · rename_i r1 h₁ mm₁ v₁ h1
      split at he
      · exact absurd he (by simp)
      · rename_i r2 h₂ mm₂ rest₂ h2
        simp only [Option.some.injEq, Prod.mk.injEq] at he
        obtain ⟨rfl, rfl, rfl⟩ := he
        obtain ⟨g1a, g2a, g3a, g4a, g5a, g6a, _⟩ := hcv h mm v h₁ mm₁ v₁ h1
        obtain ⟨g1b, g2b, g3b, g4b, g5b, g6b, gkb⟩ := ih h₁ mm₁ h₂ mm₂ rest₂ h2
        refine ⟨le_trans g1a g1b, ?_, fun hw => g3b (g3a hw),
          fun W hi hw => g4b W (g4a W hi hw) (g3a hw), ?_, ?_, ?_⟩
        · intro x hx
          rw [g2b x (lt_of_lt_of_le hx g1a), g2a x hx]
        · obtain ⟨p1, rfl⟩ := g5a
          obtain ⟨p2, rfl⟩ := g5b
          exact ⟨p2 ++ p1, by simp⟩
        · intro W hi hw r hr
          rw [entsRefs] at hr
          rcases List.mem_append.mp hr with hr | hr
          · have := g6a W hi hw r hr
            exact ⟨this.1, lt_of_lt_of_le this.2 g1b⟩
          · exact g6b W (g4a W hi hw) (g3a hw) r hr
        · simp only [List.map_cons, gkb]

theorem natsGood_of {cv : CopyFn} (hcv : CvGood cv) :
    NatsGood (copyAddrsWith cv) := by
  intro l
  induction l with
  | nil =>
    intro h mm h' mm' l' he
    rw [copyAddrsWith] at he
    simp only [Option.some.injEq, Prod.mk.injEq] at he
    obtain ⟨rfl, rfl, rfl⟩ := he
    refine ⟨le_refl _, fun x _ => rfl, id, fun W hi _ => hi, ⟨[], rfl⟩, ?_, rfl⟩
    intro W _ _ r hr
    simp at hr
  | cons a rest ih =>
    intro h mm h' mm' l' he
    rw [copyAddrsWith] at he
    split at he
    · rename_i h₁ mm₁ b h1
      split at he
      · exact absurd he (by simp)
      · rename_i r2 h₂ mm₂ rest₂ h2
        simp only [Option.some.injEq, Prod.mk.injEq] at he
        obtain ⟨rfl, rfl, rfl⟩ := he
        obtain ⟨g1a, g2a, g3a, g4a, g5a, g6a, _⟩ := hcv h mm (.href a) h₁ mm₁ (.href b) h1
        obtain ⟨g1b, g2b, g3b, g4b, g5b, g6b, glb⟩ := ih h₁ mm₁ h₂ mm₂ rest₂ h2
        refine ⟨le_trans g1a g1b, ?_, fun hw => g3b (g3a hw),
          fun W hi hw => g4b W (g4a W hi hw) (g3a hw), ?_, ?_, ?_⟩
        · intro x hx
          rw [g2b x (lt_of_lt_of_le hx g1a), g2a x hx]
        · obtain ⟨p1, rfl⟩ := g5a
          obtain ⟨p2, rfl⟩ := g5b
          exact ⟨p2 ++ p1, by simp⟩
        · intro W hi hw r hr
          rcases List.mem_cons.mp hr with hr | hr
          · subst hr
            have := g6a W hi hw r (by simp [valRefs])
            exact ⟨this.1, lt_of_lt_of_le this.2 g1b⟩
          · exact g6b W (g4a W hi hw) (g3a hw) r hr
        · simp [glb]
    · exact absurd he (by simp)

theorem objGood_of {cv : CopyFn} (hcv : CvGood cv) :
    ObjGood (copyObjWith cv) := by
  intro ob h mm h' mm' ob' he
  cases ob with
  | orig d =>
    rw [copyObjWith] at he
    split at he
    · exact absurd he (by simp)
    · rename_i r1 h₁ mm₁ d₁ h1
      simp only [Option.some.injEq, Prod.mk.injEq] at he
      obtain ⟨rfl, rfl, rfl⟩ := he
      obtain ⟨g1, g2, g3, g4, g5, g6, gk⟩ := entriesGood_of hcv d h mm h₁ mm₁ d₁ h1
      refine ⟨g1, g2, g3, g4, g5, ?_, ?_, ?_⟩
      · intro W hi hw r hr
        rw [show objRefs (.orig d₁) = entsRefs d₁ from rfl] at hr
        exact g6 W hi hw r hr
      · intro d0 hd0
        injection hd0 with hd0
        subst hd0
        exact ⟨d₁, rfl, gk⟩
      · intro hist pos labels cnt oref habs
        exact absurd habs (by simp)
  | care hist pos labels cnt oref =>
    rw [copyObjWith] at he
    split at he
    · exact absurd he (by simp)
    · rename_i r1 h₁ mm₁ hist₁ h1
      split at he
      · rename_i h₂ mm₂ oref₂ h2
        simp only [Option.some.injEq, Prod.mk.injEq] at he
        obtain ⟨rfl, rfl, rfl⟩ := he
        obtain ⟨g1a, g2a, g3a, g4a, g5a, g6a, gla⟩ := natsGood_of hcv hist h mm h₁ mm₁ hist₁ h1
        obtain ⟨g1b, g2b, g3b, g4b, g5b, g6b, _⟩ := hcv h₁ mm₁ (.href oref) h₂ mm₂ (.href oref₂) h2
        refine ⟨le_trans g1a g1b, ?_, fun hw => g3b (g3a hw),
          fun W hi hw => g4b W (g4a W hi hw) (g3a hw), ?_, ?_, ?_, ?_⟩
        · intro x hx
          rw [g2b x (lt_of_lt_of_le hx g1a), g2a x hx]
        · obtain ⟨p1, rfl⟩ := g5a
          obtain ⟨p2, rfl⟩ := g5b
          exact ⟨p2 ++ p1, by simp⟩
        · intro W hi hw r hr
          rw [show objRefs (.care hist₁ pos labels cnt oref₂) = hist₁ ++ [oref₂] from rfl] at hr
          rcases List.mem_append.mp hr with hr | hr
          · have := g6a W hi hw r hr
            exact ⟨this.1, lt_of_lt_of_le this.2 g1b⟩
          · simp only [List.mem_singleton] at hr
            subst hr
            exact g6b W (g4a W hi hw) (g3a hw) r (by simp [valRefs])
        · intro d0 habs
          exact absurd habs (by simp)
        · intro hist0 pos0 labels0 cnt0 oref0 hceq
          injection hceq with e1 e2 e3 e4 e5
          subst e1; subst e2; subst e3; subst e4; subst e5
          exact ⟨hist₁, oref₂, rfl, gla⟩
      · exact absurd he (by simp)
  | mem st =>
    rw [copyObjWith] at he
    split at he
    · exact absurd he (by simp)
    · rename_i r1 h₁ mm₁ st₁ h1
      simp only [Option.some.injEq, Prod.mk.injEq] at he
      obtain ⟨rfl, rfl, rfl⟩ := he
      obtain ⟨g1, g2, g3, g4, g5, g6, _⟩ := hcv h mm st h₁ mm₁ st₁ h1
      refine ⟨g1, g2, g3, g4, g5, ?_, ?_, ?_⟩
      · intro W hi hw r hr
        rw [show objRefs (.mem st₁) = valRefs st₁ from rfl] at hr
        exact g6 W hi hw r hr
      · intro d0 habs
        exact absurd habs (by simp)
      · intro hist pos labels cnt oref habs
        exact absurd habs (by simp)

theorem copyVal_succ_miss {f : Nat} {h : Heap} {mm : Memo} {a : Nat}
    (hm : lookupMemo mm a = none) :
    copyVal (f + 1) h mm (.href a) =
      (match h.find a with
       | none => none
       | some ob =>
         match copyObjWith (copyVal f) ⟨(h.next, HObj.orig []) :: h.objs, h.next + 1⟩
             ((a, h.next) :: mm) ob with
         | none => none
         | some (h₂, mm₂, ob₂) => some (h₂.set h.next ob₂, mm₂, .href h.next)) := by
  simp [copyVal, hm]

/-- The copy correctness bundle holds for `copyVal` at every fuel. -/
theorem copyVal_good : ∀ fuel : Nat, CvGood (copyVal fuel) := by
  intro fuel
  induction fuel with
  | zero =>
    intro h mm v h' mm' v' he
    cases v
    case href a =>
      cases hm : lookupMemo mm a with
      | some b =>
        rw [copyVal_hit_eq hm] at he
        simp only [Option.some.injEq, Prod.mk.injEq] at he
        obtain ⟨rfl, rfl, rfl⟩ := he
        refine ⟨le_refl _, fun x _ => rfl, id, fun W hi _ => hi, ⟨[], rfl⟩, ?_, ?_⟩
        · intro W hi _ r hr
          simp only [valRefs, List.mem_singleton] at hr
          subst hr
          exact hi.2.1 r (lookupMemo_some_mem_range hm)
        · intro habs
          simp [valRefs] at habs
      | none =>
        simp [copyVal, hm] at he
    all_goals {
      simp only [copyVal] at he
      simp only [Option.some.injEq, Prod.mk.injEq] at he
      obtain ⟨rfl, rfl, rfl⟩ := he
      refine ⟨le_refl _, fun x _ => rfl, id, fun W hi _ => hi, ⟨[], rfl⟩, ?_,
        fun _ => ⟨rfl, rfl, rfl⟩⟩
      intro W _ _ r hr
      simp [valRefs] at hr
    }
  | succ f ihf =>
    intro h mm v h' mm' v' he
    cases v
    case href a =>
      cases hm : lookupMemo mm a with
      | some b =>
        rw [copyVal_hit_eq hm] at he
        simp only [Option.some.injEq, Prod.mk.injEq] at he
        obtain ⟨rfl, rfl, rfl⟩ := he
        refine ⟨le_refl _, fun x _ => rfl, id, fun W hi _ => hi, ⟨[], rfl⟩, ?_, ?_⟩
        · intro W hi _ r hr
          simp only [valRefs, List.mem_singleton] at hr
          subst hr
          exact hi.2.1 r (lookupMemo_some_mem_range hm)
        · intro habs
          simp [valRefs] at habs
      | none =>
        rw [copyVal_succ_miss hm] at he
        split at he
        · exact absurd he (by simp)
        · rename_i ob hf
          split at he
          · exact absurd he (by simp)
          · rename_i r2 h₂ mm₂ ob₂ hob
            simp only [Option.some.injEq, Prod.mk.injEq] at he
            obtain ⟨rfl, rfl, rfl⟩ := he
            obtain ⟨g1, g2, g3, g4, g5, g6, _, _⟩ := objGood_of ihf ob
              ⟨(h.next, HObj.orig []) :: h.objs, h.next + 1⟩ ((a, h.next) :: mm)
              h₂ mm₂ ob₂ hob
            have hn1 : (⟨(h.next, HObj.orig []) :: h.objs, h.next + 1⟩ : Heap).next
                = h.next + 1 := rfl
            rw [hn1] at g1
            refine ⟨?_, ?_, ?_, ?_, ?_, ?_, ?_⟩
            · rw [set_next]
              omega
            · intro x hx
              have hxb : x ≠ h.next := by omega
              rw [find_set_ne _ _ (fun hh => hxb hh.symm)]
              rw [g2 x (by rw [hn1]; omega)]
              exact find_alloc_ne (fun hh => hxb hh.symm)
            · intro hw
              have hw1 := WFdom_alloc hw
              have hw2 := g3 hw1
              exact WFdom_set hw2 (by omega)
            · intro W hi hw
              have I1 := regionInv_alloc a hi
              have I2 := g4 W I1 (WFdom_alloc hw)
              refine regionInv_set I2 ?_
              intro r hr
              have := g6 W I1 (WFdom_alloc hw) r hr
              exact this
            · obtain ⟨pre, rfl⟩ := g5
              exact ⟨pre ++ [(a, h.next)], by simp⟩
            · intro W hi _ r hr
              simp only [valRefs, List.mem_singleton] at hr
              subst hr
              refine ⟨hi.1, ?_⟩
              rw [set_next]
              omega
            · intro habs
              simp [valRefs] at habs
    all_goals {
      simp only [copyVal] at he
      simp only [Option.some.injEq, Prod.mk.injEq] at he
      obtain ⟨rfl, rfl, rfl⟩ := he
      refine ⟨le_refl _, fun x _ => rfl, id, fun W hi _ => hi, ⟨[], rfl⟩, ?_,
        fun _ => ⟨rfl, rfl, rfl⟩⟩
      intro W _ _ r hr
      simp [valRefs] at hr
    }

theorem entriesFrame_of {cv : CopyFn} (hg : CvGood cv) (hf : CvFrame cv) :
    EntriesFrame (copyEntriesWith cv) := by
  intro d
  induction d with
  | nil =>
    intro W h₁ h₂ mm hag _ _ _ _
    exact Or.inr ⟨h₁, h₂, mm, [], rfl, rfl, hag⟩
  | cons p rest ih =>
    intro W h₁ h₂ mm hag hinv hw1 hw2 hrefs
    obtain ⟨k, v⟩ := p
    have hv : ∀ r ∈ valRefs v, W ≤ r := by
      intro r hr
      exact hrefs r (by rw [entsRefs]; exact List.mem_append_left _ hr)
    have hrest : ∀ r ∈ entsRefs rest, W ≤ r := by
      intro r hr
      exact hrefs r (by rw [entsRefs]; exact List.mem_append_right _ hr)
    rcases hf W h₁ h₂ mm v hag hinv hw1 hw2 hv with
      ⟨hn1, hn2⟩ | ⟨h₁', h₂', mm', v', e1, e2, hag'⟩
    · left
      constructor <;> simp [copyEntriesWith, hn1, hn2]
    · have hinv' : RegionInv W h₁' mm' :=
        ((hg h₁ mm v h₁' mm' v' e1).2.2.2.1) W hinv hw1
      have hw1' : WFdom h₁' := ((hg h₁ mm v h₁' mm' v' e1).2.2.1) hw1
      have hw2' : WFdom h₂' := ((hg h₂ mm v h₂' mm' v' e2).2.2.1) hw2
      rcases ih W h₁' h₂' mm' hag' hinv' hw1' hw2' hrest with
        ⟨hn1, hn2⟩ | ⟨h₁'', h₂'', mm'', rest₂, f1, f2, hag''⟩
      · left
        constructor <;> simp [copyEntriesWith, e1, e2, hn1, hn2]
      · right
        exact ⟨h₁'', h₂'', mm'', (k, v') :: rest₂,
          by simp [copyEntriesWith, e1, f1], by simp [copyEntriesWith, e2, f2], hag''⟩

theorem natsFrame_of {cv : CopyFn} (hg : CvGood cv) (hf : CvFrame cv) :
    NatsFrame (copyAddrsWith cv) := by
  intro l
  induction l with
  | nil =>
    intro W h₁ h₂ mm hag _ _ _ _
    exact Or.inr ⟨h₁, h₂, mm, [], rfl, rfl, hag⟩
  | cons a rest ih =>
    intro W h₁ h₂ mm hag hinv hw1 hw2 hrefs
    have hv : ∀ r ∈ valRefs (HVal.href a), W ≤ r := by
      intro r hr
      simp only [valRefs, List.mem_singleton] at hr
      subst hr
      exact hrefs r (List.mem_cons_self _ _)
    have hrest : ∀ r ∈ rest, W ≤ r := fun r hr => hrefs r (List.mem_cons_of_mem _ hr)
    rcases hf W h₁ h₂ mm (.href a) hag hinv hw1 hw2 hv with
      ⟨hn1, hn2⟩ | ⟨h₁', h₂', mm', v', e1, e2, hag'⟩
    · left
      constructor <;> simp [copyAddrsWith, hn1, hn2]
    · cases v' with
      | href b =>
        have hinv' : RegionInv W h₁' mm' :=
          ((hg h₁ mm (.href a) h₁' mm' (.href b) e1).2.2.2.1) W hinv hw1
        have hw1' : WFdom h₁' := ((hg h₁ mm (.href a) h₁' mm' (.href b) e1).2.2.1) hw1
        have hw2' : WFdom h₂' := ((hg h₂ mm (.href a) h₂' mm' (.href b) e2).2.2.1) hw2
        rcases ih W h₁' h₂' mm' hag' hinv' hw1' hw2' hrest with
          ⟨hn1, hn2⟩ | ⟨h₁'', h₂'', mm'', rest₂, f1, f2, hag''⟩
        · left
          constructor <;> simp [copyAddrsWith, e1, e2, hn1, hn2]
        · right
          exact ⟨h₁'', h₂'', mm'', b :: rest₂,
            by simp [copyAddrsWith, e1, f1], by simp [copyAddrsWith, e2, f2], hag''⟩
      | hint n => left; constructor <;> simp [copyAddrsWith, e1, e2]
      | hstr s => left; constructor <;> simp [copyAddrsWith, e1, e2]
      | hbool b => left; constructor <;> simp [copyAddrsWith, e1, e2]
      | hnone => left; constructor <;> simp [copyAddrsWith, e1, e2]
      | hset ss => left; constructor <;> simp [copyAddrsWith, e1, e2]

theorem objFrame_of {cv : CopyFn} (hg : CvGood cv) (hf : CvFrame cv) :
    ObjFrame (copyObjWith cv) := by
  intro ob W h₁ h₂ mm hag hinv hw1 hw2 hrefs
  cases ob with
  | orig d =>
    rcases entriesFrame_of hg hf d W h₁ h₂ mm hag hinv hw1 hw2 hrefs with
      ⟨hn1, hn2⟩ | ⟨h₁', h₂', mm', d', e1, e2, hag'⟩
    · left
      constructor <;> simp [copyObjWith, hn1, hn2]
    · right
      exact ⟨h₁', h₂', mm', .orig d',
        by simp [copyObjWith, e1], by simp [copyObjWith, e2], hag'⟩
  | care hist pos labels cnt oref =>
    have hhist : ∀ r ∈ hist, W ≤ r := by
      intro r hr
      exact hrefs r (by rw [show objRefs (.care hist pos labels cnt oref)
        = hist ++ [oref] from rfl]; exact List.mem_append_left _ hr)
    have horef : ∀ r ∈ valRefs (HVal.href oref), W ≤ r := by
      intro r hr
      simp only [valRefs, List.mem_singleton] at hr
      rw [hr]
      exact hrefs oref (by rw [show objRefs (.care hist pos labels cnt oref)
        = hist ++ [oref] from rfl]; simp)
    rcases natsFrame_of hg hf hist W h₁ h₂ mm hag hinv hw1 hw2 hhist with
      ⟨hn1, hn2⟩ | ⟨h₁', h₂', mm', hist', e1, e2, hag'⟩
    · left
      constructor <;> simp [copyObjWith, hn1, hn2]
    · have hinv' : RegionInv W h₁' mm' := by
        rcases natsGood_of hg hist h₁ mm h₁' mm' hist' e1 with ⟨_, _, _, g4, _⟩
        exact g4 W hinv hw1
      have hw1' : WFdom h₁' := by
        rcases natsGood_of hg hist h₁ mm h₁' mm' hist' e1 with ⟨_, _, g3, _⟩
        exact g3 hw1
      have hw2' : WFdom h₂' := by
        rcases natsGood_of hg hist h₂ mm h₂' mm' hist' e2 with ⟨_, _, g3, _⟩
        exact g3 hw2
      rcases hf W h₁' h₂' mm' (.href oref) hag' hinv' hw1' hw2' horef with
        ⟨hn1, hn2⟩ | ⟨h₁'', h₂'', mm'', v', f1, f2, hag''⟩
      · left
        constructor <;> simp [copyObjWith, e1, e2, hn1, hn2]
      · cases v' with
        | href oref₂ =>
          right
          exact ⟨h₁'', h₂'', mm'', .care hist' pos labels cnt oref₂,
            by simp [copyObjWith, e1, f1], by simp [copyObjWith, e2, f2], hag''⟩
        | hint n => left; constructor <;> simp [copyObjWith, e1, e2, f1, f2]
        | hstr s => left; constructor <;> simp [copyObjWith, e1, e2, f1, f2]
        | hbool b => left; constructor <;> simp [copyObjWith, e1, e2, f1, f2]
        | hnone => left; constructor <;> simp [copyObjWith, e1, e2, f1, f2]
        | hset ss => left; constructor <;> simp [copyObjWith, e1, e2, f1, f2]
  | mem st =>
    have hst : ∀ r ∈ valRefs st, W ≤ r := by
      intro r hr
      exact hrefs r (by rw [show objRefs (.mem st) = valRefs st from rfl]; exact hr)
    rcases hf W h₁ h₂ mm st hag hinv hw1 hw2 hst with
      ⟨hn1, hn2⟩ | ⟨h₁', h₂', mm', st', e1, e2, hag'⟩
    · left
      constructor <;> simp [copyObjWith, hn1, hn2]
    · right
      exact ⟨h₁', h₂', mm', .mem st',
        by simp [copyObjWith, e1], by simp [copyObjWith, e2], hag'⟩

theorem copyVal_succ_miss_some {f : Nat} {h : Heap} {mm : Memo} {a : Nat} {ob : HObj}
    (hm : lookupMemo mm a = none) (hf : h.find a = some ob) :
    copyVal (f + 1) h mm (.href a) =
      (match copyObjWith (copyVal f) ⟨(h.next, HObj.orig []) :: h.objs, h.next + 1⟩
          ((a, h.next) :: mm) ob with
       | none => none
       | some (h₂, mm₂, ob₂) => some (h₂.set h.next ob₂, mm₂, .href h.next)) := by
  rw [copyVal_succ_miss hm, hf]

/-- The frame property holds for `copyVal` at every fuel. -/
theorem copyVal_frame : ∀ fuel : Nat, CvFrame (copyVal fuel) := by
  intro fuel
  induction fuel with
  | zero =>
    intro W h₁ h₂ mm v hag hinv hw1 hw2 hrefs
    cases v
    case href a =>
      cases hm : lookupMemo mm a with
      | some b =>
        right
        exact ⟨h₁, h₂, mm, .href b, copyVal_hit_eq hm, copyVal_hit_eq hm, hag⟩
      | none =>
        left
        constructor <;> simp [copyVal, hm]
    all_goals {
      right
      exact ⟨h₁, h₂, mm, _, copyVal_prim_eq rfl, copyVal_prim_eq rfl, hag⟩
    }
  | succ f ihf =>
    intro W h₁ h₂ mm v hag hinv hw1 hw2 hrefs
    cases v
    case href a =>
      cases hm : lookupMemo mm a with
      | some b =>
        right
        exact ⟨h₁, h₂, mm, .href b, copyVal_hit_eq hm, copyVal_hit_eq hm, hag⟩
      | none =>
        have ha : W ≤ a := hrefs a (by simp [valRefs])
        have hfind : h₁.find a = h₂.find a := hag.2 a ha
        cases hf1 : h₁.find a with
        | none =>
          have hf2 : h₂.find a = none := by rw [← hfind, hf1]
          left
          refine ⟨?_, ?_⟩
          · rw [copyVal_succ_miss hm, hf1]
          · rw [copyVal_succ_miss hm, hf2]
        | some ob =>
          have hf2 : h₂.find a = some ob := by rw [← hfind, hf1]
          have E1 := copyVal_succ_miss_some (f := f) hm hf1
          have E2 := copyVal_succ_miss_some (f := f) hm hf2
          rw [← hag.1] at E2
          have hagp : AgreeFrom W ⟨(h₁.next, HObj.orig []) :: h₁.objs, h₁.next + 1⟩
              ⟨(h₁.next, HObj.orig []) :: h₂.objs, h₁.next + 1⟩ := by
            refine ⟨rfl, ?_⟩
            intro x hx
            by_cases hxb : h₁.next = x
            · show findObj ((h₁.next, HObj.orig []) :: h₁.objs) x =
                findObj ((h₁.next, HObj.orig []) :: h₂.objs) x
              simp [findObj, hxb]
            · show findObj ((h₁.next, HObj.orig []) :: h₁.objs) x =
                findObj ((h₁.next, HObj.orig []) :: h₂.objs) x
              simp only [findObj, if_neg hxb]
              exact hag.2 x hx
          have hinvp : RegionInv W ⟨(h₁.next, HObj.orig []) :: h₁.objs, h₁.next + 1⟩
              ((a, h₁.next) :: mm) := regionInv_alloc a hinv
          have hwp1 : WFdom (⟨(h₁.next, HObj.orig []) :: h₁.objs, h₁.next + 1⟩ : Heap) :=
            WFdom_alloc hw1
          have hwp2 : WFdom (⟨(h₁.next, HObj.orig []) :: h₂.objs, h₁.next + 1⟩ : Heap) := by
            rw [hag.1]
            exact WFdom_alloc hw2
          have hobrefs : ∀ r ∈ objRefs ob, W ≤ r := by
            intro r hr
            exact (hinv.2.2 a ob ha hf1 r hr).1
          rcases objFrame_of (copyVal_good f) ihf ob W
              ⟨(h₁.next, HObj.orig []) :: h₁.objs, h₁.next + 1⟩
              ⟨(h₁.next, HObj.orig []) :: h₂.objs, h₁.next + 1⟩
              ((a, h₁.next) :: mm) hagp hinvp hwp1 hwp2 hobrefs with
            ⟨hn1, hn2⟩ | ⟨q₁, q₂, mm₂, ob₂, e1, e2, hagq⟩
          · left
            refine ⟨?_, ?_⟩
            · rw [E1, hn1]
            · rw [E2, hn2]
          · right
            refine ⟨q₁.set h₁.next ob₂, q₂.set h₁.next ob₂, mm₂, .href h₁.next,
              by rw [E1, e1], by rw [E2, e2], ?_, ?_⟩
            · show (q₁.set h₁.next ob₂).next = (q₂.set h₁.next ob₂).next
              rw [set_next, set_next]
              exact hagq.1
            · intro x hx
              by_cases hxb : h₁.next = x
              · subst hxb
                rw [find_set_self, find_set_self]
              · rw [find_set_ne _ _ hxb, find_set_ne _ _ hxb]
                exact hagq.2 x hx
    all_goals {
      right
      exact ⟨h₁, h₂, mm, _, copyVal_prim_eq rfl, copyVal_prim_eq rfl, hag⟩
    }

theorem agreeFrom_refl (W : Nat) (h : Heap) : AgreeFrom W h h :=
  ⟨rfl, fun _ _ => rfl⟩

theorem agreeFrom_trans {W : Nat} {h₁ h₂ h₃ : Heap}
    (a1 : AgreeFrom W h₁ h₂) (a2 : AgreeFrom W h₂ h₃) : AgreeFrom W h₁ h₃ :=
  ⟨a1.1.trans a2.1, fun x hx => (a1.2 x hx).trans (a2.2 x hx)⟩

theorem heapSetattr_ok_shape {h : Heap} {a : Nat} {k : String} {v : HVal} {h' : Heap}
    (he : heapSetattr h a k v = .ok h') :
    ∃ d, h.find a = some (.orig d) ∧ h' = h.set a (.orig (setattrRawH d k v)) := by
  unfold heapSetattr at he
  split at he
  · rename_i d hfind
    split at he
    · exact absurd he (by simp)
    · simp only [Except.ok.injEq] at he
      exact ⟨d, hfind, he.symm⟩
  · exact absurd he (by simp)

theorem applyMut_agree {W : Nat} {h : Heap} (mu : Mut) (hmu : mutAddr mu < W) :
    AgreeFrom W h (applyMut h mu) := by
  cases mu with
  | set a k v =>
    show AgreeFrom W h (match heapSetattr h a k v with
      | .ok h' => h' | .error _ => h)
    cases he : heapSetattr h a k v with
    | error e => exact agreeFrom_refl W h
    | ok h' =>
      obtain ⟨d, _, rfl⟩ := heapSetattr_ok_shape he
      refine ⟨rfl, ?_⟩
      intro x hx
      have hax : a ≠ x := by
        simp only [mutAddr] at hmu
        omega
      rw [find_set_ne _ _ hax]
  | del a k =>
    show AgreeFrom W h (match h.find a with
      | some (.orig d) => h.set a (.orig (d.filter (fun p => p.1 ≠ k))) | _ => h)
    cases hf : h.find a with
    | none => exact agreeFrom_refl W h
    | some ob =>
      cases ob with
      | orig d =>
        refine ⟨rfl, ?_⟩
        intro x hx
        have hax : a ≠ x := by
          simp only [mutAddr] at hmu
          omega
        rw [find_set_ne _ _ hax]
      | care hist pos labels cnt oref => exact agreeFrom_refl W h
      | mem st => exact agreeFrom_refl W h

theorem applyMut_wf {h : Heap} (hw : WFdom h) (mu : Mut) : WFdom (applyMut h mu) := by
  cases mu with
  | set a k v =>
    show WFdom (match heapSetattr h a k v with
      | .ok h' => h' | .error _ => h)
    cases he : heapSetattr h a k v with
    | error e => exact hw
    | ok h' =>
      obtain ⟨d, hfind, rfl⟩ := heapSetattr_ok_shape he
      exact WFdom_set hw (find_lt_next hw hfind)
  | del a k =>
    show WFdom (match h.find a with
      | some (.orig d) => h.set a (.orig (d.filter (fun p => p.1 ≠ k))) | _ => h)
    cases hf : h.find a with
    | none => exact hw
    | some ob =>
      cases ob with
      | orig d => exact WFdom_set hw (find_lt_next hw hf)
      | care hist pos labels cnt oref => exact hw
      | mem st => exact hw

theorem applyMuts_agree {W : Nat} :
    ∀ (ms : List Mut) (h : Heap), (∀ mu ∈ ms, mutAddr mu < W) →
      AgreeFrom W h (applyMuts h ms) ∧ (WFdom h → WFdom (applyMuts h ms)) := by
  intro ms
  induction ms with
  | nil => intro h _; exact ⟨agreeFrom_refl W h, id⟩
  | cons mu rest ih =>
    intro h hms
    have h1 := applyMut_agree (h := h) mu (hms mu (List.mem_cons_self _ _))
    have h2 := ih (applyMut h mu) (fun x hx => hms x (List.mem_cons_of_mem _ hx))
    exact ⟨agreeFrom_trans h1 h2.1,
      fun hw => h2.2 (applyMut_wf hw mu)⟩

theorem regionInv_init {h : Heap} (hw : WFdom h) : RegionInv h.next h [] := by
  refine ⟨le_refl _, ?_, ?_⟩
  · intro b hb
    simp [memoRange] at hb
  · intro a ob ha hf
    have := find_lt_next hw hf
    omega

/-- Unfolding `create_memento` on a well-formed heap: the memento lives at
a fresh address, holds a reference into the freshly copied region
`[h.next, h₂.next)`, the pre-existing objects are untouched, and the new
region is reference-closed. -/
theorem createMementoH_facts {F : Nat} {h : Heap} {a : Nat} {h₂ : Heap} {m : Nat}
    (hw : WFdom h) (hcap : createMementoH F h a = some (h₂, m)) :
    ∃ r, h₂.find m = some (.mem (.href r)) ∧
      h.next ≤ m ∧ m < h₂.next ∧ h.next ≤ r ∧ r < h₂.next ∧ h.next ≤ h₂.next ∧
      WFdom h₂ ∧ RegionInv h.next h₂ [] ∧
      (∀ x, x < h.next → h₂.find x = h.find x) := by
  unfold createMementoH at hcap
  split at hcap
  · rename_i r1 h₁ mmu r hcv
    simp only [Heap.alloc, Option.some.injEq, Prod.mk.injEq] at hcap
    obtain ⟨rfl, rfl⟩ := hcap
    obtain ⟨g1, g2, g3, g4, _, g6, _⟩ :=
      copyVal_good F h [] (.href a) h₁ mmu (.href r) hcv
    have hinv1 : RegionInv h.next h₁ mmu := g4 h.next (regionInv_init hw) hw
    have hwf1 : WFdom h₁ := g3 hw
    have hr : h.next ≤ r ∧ r < h₁.next :=
      g6 h.next (regionInv_init hw) hw r (by simp [valRefs])
    refine ⟨r, ?_, ?_, ?_, ?_, ?_, ?_, ?_, ?_, ?_⟩
    · show findObj ((h₁.next, HObj.mem (.href r)) :: h₁.objs) h₁.next =
        some (.mem (.href r))
      simp [findObj]
    · exact le_trans g1 (le_refl _)
    · show h₁.next < h₁.next + 1
      omega
    · exact hr.1
    · show r < h₁.next + 1
      omega
    · show h.next ≤ h₁.next + 1
      omega
    · intro p hp
      rcases List.mem_cons.mp hp with h1 | h1
      · subst h1
        show h₁.next < h₁.next + 1
        omega
      · have := hwf1 p h1
        show p.1 < h₁.next + 1
        omega
    · refine ⟨?_, ?_, ?_⟩
      · show h.next ≤ h₁.next + 1
        omega
      · intro b hb
        simp [memoRange] at hb
      · intro x ob hx hf
        show ∀ q ∈ objRefs ob, h.next ≤ q ∧ q < h₁.next + 1
        by_cases hxm : h₁.next = x
        · have : findObj ((h₁.next, HObj.mem (.href r)) :: h₁.objs) x =
              some (.mem (.href r)) := by
            simp [findObj, hxm]
          rw [show Heap.find ⟨(h₁.next, HObj.mem (.href r)) :: h₁.objs, h₁.next + 1⟩ x =
            findObj ((h₁.next, HObj.mem (.href r)) :: h₁.objs) x from rfl, this] at hf
          simp only [Option.some.injEq] at hf
          subst hf
          intro q hq
          rw [show objRefs (.mem (.href r)) = [r] from rfl] at hq
          simp only [List.mem_singleton] at hq
          subst hq
          exact ⟨hr.1, by omega⟩
        · have heq : Heap.find ⟨(h₁.next, HObj.mem (.href r)) :: h₁.objs, h₁.next + 1⟩ x =
              h₁.find x := by
            simp [Heap.find, findObj, hxm]
          rw [heq] at hf
          intro q hq
          have := hinv1.2.2 x ob hx hf q hq
          exact ⟨this.1, by omega⟩
    · intro x hx
      have hxm : h₁.next ≠ x := by omega
      have heq : Heap.find ⟨(h₁.next, HObj.mem (.href r)) :: h₁.objs, h₁.next + 1⟩ x =
          h₁.find x := by
        simp [Heap.find, findObj, hxm]
      rw [heq]
      exact g2 x hx
  · exact absurd hcap (by simp)

/-- A deepcopy of a reference with an empty memo allocates its root at the
current allocation counter and strictly advances the counter. -/
theorem copyVal_root {g : Nat} {h : Heap} {x : Nat} {h' : Heap} {mm' : Memo} {v' : HVal}
    (he : copyVal g h [] (.href x) = some (h', mm', v')) :
    v' = .href h.next ∧ h.next + 1 ≤ h'.next := by
  cases g with
  | zero => simp [copyVal, lookupMemo] at he
  | succ g =>
    rw [copyVal_succ_miss (by rfl)] at he
    split at he
    · exact absurd he (by simp)
    · rename_i ob hf
      split at he
      · exact absurd he (by simp)
      · rename_i r2 q mm₂ ob₂ hob
        simp only [Option.some.injEq, Prod.mk.injEq] at he
        obtain ⟨he1, _, he3⟩ := he
        obtain ⟨g1, _⟩ := objGood_of (copyVal_good g) ob
          ⟨(h.next, HObj.orig []) :: h.objs, h.next + 1⟩ ((x, h.next) :: [])
          q mm₂ ob₂ hob
        have hn1 : (⟨(h.next, HObj.orig []) :: h.objs, h.next + 1⟩ : Heap).next
            = h.next + 1 := rfl
        rw [hn1] at g1
        constructor
        · rw [← he3]
        · rw [← he1, set_next]
          exact g1

/-- Claim C6: snapshot isolation and fresh materialisation.  After
`create_memento` captures a snapshot (a detached deep copy in the fresh
region `[h.next, h₂.next)`), (i) any sequence of attribute mutations and
deletions on pre-capture objects leaves a later `get_snapshot` run
unchanged: it returns the same value and writes an identical fresh object
graph (the two result heaps agree on every address of and above the
capture region); and (ii) the value returned by `get_snapshot` is a
reference freshly allocated by that very call, so a second
`get_snapshot` returns a strictly newer address — two calls never return
the same backing object. -/
theorem C6_snapshot_isolation
    (F G : Nat) (h : Heap) (a : Nat) (hw : WFdom h)
    (h₂ : Heap) (m : Nat) (hcap : createMementoH F h a = some (h₂, m))
    (ms : List Mut) (hms : ∀ mu ∈ ms, mutAddr mu < h.next)
    (h' : Heap) (v : HVal) (hget : getSnapshotH G h₂ m = some (h', v)) :
    (∃ h'', getSnapshotH G (applyMuts h₂ ms) m = some (h'', v) ∧
      h'.next = h''.next ∧ ∀ x, h.next ≤ x → h'.find x = h''.find x) ∧
    (v = .href h₂.next ∧
      ∀ h₃ w, getSnapshotH G h' m = some (h₃, w) → w ≠ .href h₂.next) := by
  obtain ⟨r, hm2, hmge, hmlt, hrge, hrlt, hnle, hwf2, hinv2, hlow⟩ :=
    createMementoH_facts hw hcap
  unfold getSnapshotH at hget
  split at hget
  · rename_i st hfm
    rw [hm2] at hfm
    have hst : st = .href r := by
      simp only [Option.some.injEq, HObj.mem.injEq] at hfm
      exact hfm.symm
    subst hst
    split at hget
    · exact absurd hget (by simp)
    · rename_i rq q mmq vq hcvq
      simp only [Option.some.injEq, Prod.mk.injEq] at hget
      obtain ⟨rfl, rfl⟩ := hget
      have hroot := copyVal_root hcvq
      constructor
      · -- isolation under mutations
        obtain ⟨hag, hwmut⟩ := applyMuts_agree (W := h.next) ms h₂ hms
        have hw3 : WFdom (applyMuts h₂ ms) := hwmut hwf2
        have hrefs : ∀ rr ∈ valRefs (HVal.href r), h.next ≤ rr := by
          intro rr hrr
          simp only [valRefs, List.mem_singleton] at hrr
          rw [hrr]
          exact hrge
        rcases copyVal_frame G h.next h₂ (applyMuts h₂ ms) [] (.href r)
            hag hinv2 hwf2 hw3 hrefs with ⟨hn1, _⟩ | ⟨q₁, q₂, mm', v', e1, e2, hag'⟩
        · rw [hn1] at hcvq
          exact absurd hcvq (by simp)
        · rw [hcvq] at e1
          simp only [Option.some.injEq, Prod.mk.injEq] at e1
          obtain ⟨hq1, _, hv1⟩ := e1
          subst hq1
          have hfind3 : (applyMuts h₂ ms).find m = some (.mem (.href r)) := by
            rw [← hag.2 m hmge]
            exact hm2
          refine ⟨q₂, ?_, ?_, ?_⟩
          · rw [getSnapshotH, hfind3]
            simp only []
            rw [e2, ← hv1]
          · exact hag'.1
          · exact hag'.2
      · -- fresh materialisation
        refine ⟨hroot.1, ?_⟩
        intro h₃ w hsec
        unfold getSnapshotH at hsec
        have hfm' : q.find m = some (.mem (.href r)) := by
          have g2 := (copyVal_good G h₂ [] (.href r) q mmq vq hcvq).2.1
          rw [g2 m hmlt]
          exact hm2
        rw [hfm'] at hsec
        have hsec2 : (match copyVal G q [] (.href r) with
            | none => none
            | some (h₁, _, st₁) => some (h₁, st₁)) = some (h₃, w) := hsec
        split at hsec2
        · exact absurd hsec2 (by simp)
        · rename_i rq2 q2 mmq2 w2 hcvq2
          simp only [Option.some.injEq, Prod.mk.injEq] at hsec2
          obtain ⟨rfl, rfl⟩ := hsec2
          have hroot2 := copyVal_root hcvq2
          rw [hroot2.1]
          intro habs
          simp only [HVal.href.injEq] at habs
          omega
  · exact absurd hget (by simp)

theorem lookupH_setattrRawH_self (d : List (String × HVal)) (k : String) (v : HVal) :
    lookupH (setattrRawH d k v) k = some v := by
  induction d with
  | nil => simp [setattrRawH, lookupH]
  | cons p rest ih =>
    obtain ⟨p₁, p₂⟩ := p
    by_cases hpk : p₁ = k
    · subst hpk
      simp [setattrRawH, lookupH]
    · simp only [setattrRawH, if_neg hpk, lookupH]
      exact ih

theorem lookupH_setattrRawH_ne (d : List (String × HVal)) {k k' : String} (v : HVal)
    (hne : k ≠ k') :
    lookupH (setattrRawH d k v) k' = lookupH d k' := by
  induction d with
  | nil => simp [setattrRawH, lookupH, hne]
  | cons p rest ih =>
    obtain ⟨p₁, p₂⟩ := p
    by_cases hpk : p₁ = k
    · subst hpk
      have h1 : setattrRawH ((p₁, p₂) :: rest) p₁ v = (p₁, v) :: rest := by
        simp [setattrRawH]
      rw [h1]
      show (if p₁ = k' then some v else lookupH rest k') =
        (if p₁ = k' then some p₂ else lookupH rest k')
      rw [if_neg hne, if_neg hne]
    · have h1 : setattrRawH ((p₁, p₂) :: rest) k v = (p₁, p₂) :: setattrRawH rest k v := by
        simp [setattrRawH, hpk]
      rw [h1]
      show (if p₁ = k' then some p₂ else lookupH (setattrRawH rest k v) k') =
        (if p₁ = k' then some p₂ else lookupH rest k')
      by_cases hpk' : p₁ = k'
      · rw [if_pos hpk', if_pos hpk']
      · rw [if_neg hpk', if_neg hpk']
        exact ih

theorem get?_append_pair {α : Type} : ∀ (l : List α) (x y : α),
    (l ++ [x, y]).get? l.length = some x := by
  intro l
  induction l with
  | nil => intro x y; rfl
  | cons a rest ih => intro x y; exact ih x y

/-- Copying a reference to a caretaker object (memo miss) allocates the
copy at the current counter and preserves the cursor, the labels, the
counter and the history length. -/
theorem copyCare_shape {f : Nat} {h : Heap} {c : Nat} {mm : Memo}
    {hist : List Nat} {pos cnt : Nat} {labels : List String} {oref : Nat}
    {h' : Heap} {mm' : Memo} {v' : HVal}
    (hc : h.find c = some (.care hist pos labels cnt oref))
    (hmm : lookupMemo mm c = none)
    (hcv : copyVal f h mm (.href c) = some (h', mm', v')) :
    v' = .href h.next ∧ h.next + 1 ≤ h'.next ∧
      ∃ hist₁ oref₁, h'.find h.next = some (.care hist₁ pos labels cnt oref₁) ∧
        hist₁.length = hist.length := by
  cases f with
  | zero => simp [copyVal, hmm] at hcv
  | succ f =>
    rw [copyVal_succ_miss_some hmm hc] at hcv
    split at hcv
    · exact absurd hcv (by simp)
    · rename_i r2 q mm₂ ob₂ hob
      simp only [Option.some.injEq, Prod.mk.injEq] at hcv
      obtain ⟨he1, he2, he3⟩ := hcv
      obtain ⟨g1, _, _, _, _, _, _, gshc⟩ := objGood_of (copyVal_good f)
        (.care hist pos labels cnt oref)
        ⟨(h.next, HObj.orig []) :: h.objs, h.next + 1⟩ ((c, h.next) :: mm)
        q mm₂ ob₂ hob
      obtain ⟨hist₁, oref₁, hob₂, hlen⟩ := gshc hist pos labels cnt oref rfl
      have hn1 : (⟨(h.next, HObj.orig []) :: h.objs, h.next + 1⟩ : Heap).next
          = h.next + 1 := rfl
      rw [hn1] at g1
      refine ⟨he3.symm, ?_, hist₁, oref₁, ?_, hlen⟩
      · rw [← he1, set_next]
        exact g1
      · rw [← he1, hob₂]
        exact find_set_self q h.next _

/-- Copying a reference to an originator whose dictionary starts with the
caretaker link and the readonly set (the shape `Originator.__init__`
produces) yields a fresh copy of the same shape at the old allocation
counter: same keys in order, the same readonly set value, and a fresh
caretaker copy whose cursor, labels, counter and history length match the
source caretaker. -/
theorem copyOrig_shape {f : Nat} {h : Heap} {a c : Nat} {ss : List String}
    {rest : List (String × HVal)} {hist : List Nat} {pos cnt : Nat}
    {labels : List String} {oref : Nat}
    {h' : Heap} {mm' : Memo} {v' : HVal}
    (hw : WFdom h)
    (hda : h.find a = some (.orig (("_Originator__caretaker", .href c) ::
        ("_Originator__readonly", .hset ss) :: rest)))
    (hc : h.find c = some (.care hist pos labels cnt oref))
    (hcv : copyVal f h [] (.href a) = some (h', mm', v')) :
    ∃ c₁ rest₁, v' = .href h.next ∧ h.next + 1 ≤ h'.next ∧
      h'.find h.next = some (.orig (("_Originator__caretaker", .href c₁) ::
        ("_Originator__readonly", .hset ss) :: rest₁)) ∧
      rest₁.map (·.1) = rest.map (·.1) ∧
      h.next < c₁ ∧ c₁ < h'.next ∧
      ∃ hist₁ oref₁, h'.find c₁ = some (.care hist₁ pos labels cnt oref₁) ∧
        hist₁.length = hist.length := by
  have hac : a ≠ c := by
    intro he
    rw [he, hc] at hda
    simp at hda
  have hclt : c < h.next := find_lt_next hw hc
  cases f with
  | zero => simp [copyVal, lookupMemo] at hcv
  | succ f =>
    rw [copyVal_succ_miss_some (by rfl) hda] at hcv
    split at hcv
    · exact absurd hcv (by simp)
    · rename_i r2 q mm₂ ob₂ hob
      rw [copyObjWith] at hob
      split at hob
      · exact absurd hob (by simp)
      · rename_i r3 hE mmE dE hEnt
        simp only [Option.some.injEq, Prod.mk.injEq] at hob
        obtain ⟨rfl, rfl, rfl⟩ := hob
        rw [copyEntriesWith] at hEnt
        split at hEnt
        · exact absurd hEnt (by simp)
        · rename_i r4 hx mmx vx hcvc
          have hPc : Heap.find ⟨(h.next, HObj.orig []) :: h.objs, h.next + 1⟩ c =
              some (.care hist pos labels cnt oref) := by
            rw [find_alloc_ne (by omega)]
            exact hc
          have hmmc : lookupMemo ((a, h.next) :: []) c = none := by
            simp [lookupMemo, hac]
          obtain ⟨hvx, hxnext, hist₁, oref₁, hfc₁, hlen₁⟩ :=
            copyCare_shape hPc hmmc hcvc
          have hPnext : (⟨(h.next, HObj.orig []) :: h.objs, h.next + 1⟩ : Heap).next
              = h.next + 1 := rfl
          rw [hPnext] at hvx hfc₁ hxnext
          subst hvx
          split at hEnt
          · exact absurd hEnt (by simp)
          · rename_i r5 hy mmy dy hEnt2
            rw [copyEntriesWith] at hEnt2
            split at hEnt2
            · exact absurd hEnt2 (by simp)
            · rename_i r6 hx2 mmx2 v2 hcvs
              rw [copyVal_prim_eq (v := HVal.hset ss) rfl] at hcvs
              simp only [Option.some.injEq, Prod.mk.injEq] at hcvs
              obtain ⟨hhx2, hmmx2, hv2⟩ := hcvs
              subst hhx2
              subst hmmx2
              subst hv2
              split at hEnt2
              · exact absurd hEnt2 (by simp)
              · rename_i r7 hz mmz restz hEnt3
                simp only [Option.some.injEq, Prod.mk.injEq] at hEnt2 hEnt hcv
                obtain ⟨hhz, hmmz, hdy⟩ := hEnt2
                obtain ⟨hhE, hmmE, hdE⟩ := hEnt
                obtain ⟨hh', hmm', hv'⟩ := hcv
                subst hdy
                subst hdE
                subst hhz
                subst hhE
                subst hmmz
                subst hmmE
                subst hh'
                subst hmm'
                subst hv'
                obtain ⟨gz1, gz2, _, _, _, _, gzk⟩ :=
                  entriesGood_of (copyVal_good f) rest hx mmx hz mmz restz hEnt3
                have hc₁lt : h.next + 1 < hx.next := by omega
                refine ⟨h.next + 1, restz, rfl, ?_, ?_, gzk, ?_, ?_,
                  hist₁, oref₁, ?_, hlen₁⟩
                · rw [set_next]
                  omega
                · exact find_set_self hz h.next _
                · omega
                · rw [set_next]
                  omega
                · rw [find_set_ne _ _ (by omega)]
                  rw [gz2 (h.next + 1) hc₁lt]
                  exact hfc₁

/-- What a successful `_recursive_restore` entry loop does to the heap:
the allocation counter only grows, every pre-existing object other than
the target is untouched, the heap stays well-formed, and every key of the
target dictionary that is not among the written entries keeps its
value. -/
theorem restoreEntriesH_effect {f : Nat} :
    ∀ (es : List (String × HVal)) (h : Heap) (a : Nat) (h' : Heap),
      WFdom h →
      restoreEntriesH f h a es = some (.ok h') →
      h.next ≤ h'.next ∧
      (∀ x, x ≠ a → x < h.next → h'.find x = h.find x) ∧
      WFdom h' ∧
      (∀ d, h.find a = some (.orig d) →
        ∃ d', h'.find a = some (.orig d') ∧
          ∀ k, k ∉ es.map (·.1) → lookupH d' k = lookupH d k) := by
  intro es
  induction es with
  | nil =>
    intro h a h' hw he
    have hh : h' = h := by
      unfold restoreEntriesH at he
      simp only [Option.some.injEq, Except.ok.injEq] at he
      exact he.symm
    subst hh
    exact ⟨le_refl _, fun x _ _ => rfl, hw,
      fun d hd => ⟨d, hd, fun k _ => rfl⟩⟩
  | cons p rest ih =>
    obtain ⟨k, v⟩ := p
    intro h a h' hw he
    unfold restoreEntriesH at he
    split at he
    · exact absurd he (by simp)
    · split at he
      · exact absurd he (by simp)
      · rename_i r1 h₁ mm₁ v₁ hcv
        split at he
        · exact absurd he (by simp)
        · rename_i h₂ hsa
          obtain ⟨g1, g2, g3, _⟩ := copyVal_good f h [] v h₁ mm₁ v₁ hcv
          obtain ⟨d₁, hfa₁, rfl⟩ := heapSetattr_ok_shape hsa
          have hwa1 : a < h₁.next := find_lt_next (g3 hw) hfa₁
          have hw₂ : WFdom (h₁.set a (.orig (setattrRawH d₁ k v₁))) :=
            WFdom_set (g3 hw) hwa1
          obtain ⟨i1, i2, i3, i4⟩ := ih _ a h' hw₂ he
          have hnn : (h₁.set a (.orig (setattrRawH d₁ k v₁))).next = h₁.next :=
            set_next _ _ _
          refine ⟨?_, ?_, i3, ?_⟩
          · rw [hnn] at i1
            omega
          · intro x hx hlt
            rw [i2 x hx (by rw [hnn]; omega), find_set_ne _ _ (Ne.symm hx),
              g2 x hlt]
          · intro d hd
            have hd₁ : d₁ = d := by
              rw [g2 a (find_lt_next hw hd), hd] at hfa₁
              simp only [Option.some.injEq, HObj.orig.injEq] at hfa₁
              exact hfa₁.symm
            subst hd₁
            obtain ⟨d', hfd', hlk⟩ := i4 (setattrRawH d₁ k v₁)
              (find_set_self h₁ a _)
            refine ⟨d', hfd', ?_⟩
            intro k' hk'
            have hk'k : k ≠ k' := by
              intro hkk
              exact hk' (by
                rw [← hkk]
                exact List.mem_cons_self _ _)
            have hk'rest : k' ∉ rest.map (·.1) := by
              intro hmem
              exact hk' (List.mem_cons_of_mem _ hmem)
            rw [hlk k' hk'rest, lookupH_setattrRawH_ne d₁ v₁ hk'k]

/-- What a successful `set_state` attribute loop does to the heap: the
allocation counter is unchanged, every object other than the target is
untouched, and every key of the target dictionary not among the keyword
names keeps its value. -/
theorem setManyH_effect :
    ∀ (kw : List (String × HVal)) (h : Heap) (a : Nat) (h' : Heap),
      setManyH h a kw = .ok h' →
      h'.next = h.next ∧
      (∀ x, x ≠ a → h'.find x = h.find x) ∧
      (∀ d, h.find a = some (.orig d) →
        ∃ d', h'.find a = some (.orig d') ∧
          ∀ k, k ∉ kw.map (·.1) → lookupH d' k = lookupH d k) := by
  intro kw
  induction kw with
  | nil =>
    intro h a h' he
    have hh : h' = h := by
      unfold setManyH at he
      simp only [Except.ok.injEq] at he
      exact he.symm
    subst hh
    exact ⟨rfl, fun x _ => rfl, fun d hd => ⟨d, hd, fun k _ => rfl⟩⟩
  | cons p rest ih =>
    obtain ⟨k, v⟩ := p
    intro h a h' he
    unfold setManyH at he
    split at he
    · exact absurd he (by simp)
    · rename_i h₁ hsa
      obtain ⟨d₁, hfa₁, rfl⟩ := heapSetattr_ok_shape hsa
      obtain ⟨i1, i2, i3⟩ := ih _ a h' he
      refine ⟨by rw [i1, set_next], ?_, ?_⟩
      · intro x hx
        rw [i2 x hx, find_set_ne _ _ (Ne.symm hx)]
      · intro d hd
        have hd₁ : d₁ = d := by
          rw [hd] at hfa₁
          simp only [Option.some.injEq, HObj.orig.injEq] at hfa₁
          exact hfa₁.symm
        subst hd₁
        obtain ⟨d', hfd', hlk⟩ := i3 (setattrRawH d₁ k v)
          (find_set_self h a _)
        refine ⟨d', hfd', ?_⟩
        intro k' hk'
        have hk'k : k ≠ k' := by
          intro hkk
          exact hk' (by
            rw [← hkk]
            exact List.mem_cons_self _ _)
        have hk'rest : k' ∉ rest.map (·.1) := by
          intro hmem
          exact hk' (List.mem_cons_of_mem _ hmem)
        rw [hlk k' hk'rest, lookupH_setattrRawH_ne d₁ v hk'k]

/-- `create_memento` only allocates: the counter grows and every
pre-existing object is untouched. -/
theorem createMementoH_low {F : Nat} {h : Heap} {a : Nat} {h₂ : Heap} {m : Nat}
    (hcap : createMementoH F h a = some (h₂, m)) :
    h.next ≤ h₂.next ∧ (∀ x, x < h.next → h₂.find x = h.find x) := by
  unfold createMementoH at hcap
  split at hcap
  · rename_i r1 h₁ mmu r hcv
    simp only [Heap.alloc, Option.some.injEq, Prod.mk.injEq] at hcap
    obtain ⟨rfl, rfl⟩ := hcap
    obtain ⟨g1, g2, _⟩ := copyVal_good F h [] (.href a) h₁ mmu (.href r) hcv
    constructor
    · show h.next ≤ h₁.next + 1
      omega
    · intro x hx
      have hxm : h₁.next ≠ x := by omega
      have heq : Heap.find ⟨(h₁.next, HObj.mem (.href r)) :: h₁.objs, h₁.next + 1⟩ x
          = h₁.find x := by
        simp [Heap.find, findObj, hxm]
      rw [heq]
      exact g2 x hx
  · exact absurd hcap (by simp)

/-- What a successful `checkpoint` does to the heap: the caretaker gets
one memento appended to its history (cursor moved to it, one label added,
counter bumped) and every other pre-existing object is untouched. -/
theorem checkpointH_effect {f : Nat} {h : Heap} {c : Nat} {desc : Option String}
    {ts : String} {hist : List Nat} {pos cnt : Nat} {labels : List String}
    {oref : Nat} {h' : Heap}
    (hfc : h.find c = some (.care hist pos labels cnt oref))
    (hch : checkpointH f h c desc ts = some h') :
    (∃ m, h'.find c = some (.care (hist ++ [m]) hist.length
        (labels ++ [genLabel (cnt + 1) ts desc]) (cnt + 1) oref)) ∧
    (∀ x, x ≠ c → x < h.next → h'.find x = h.find x) := by
  unfold checkpointH at hch
  split at hch
  · rename_i hist' pos' labels' cnt' oref' hq
    rw [hfc] at hq
    simp only [Option.some.injEq, HObj.care.injEq] at hq
    obtain ⟨rfl, rfl, rfl, rfl, rfl⟩ := hq
    split at hch
    · exact absurd hch (by simp)
    · rename_i h₁ m hcap
      simp only [Option.some.injEq] at hch
      subst hch
      obtain ⟨k1, k2⟩ := createMementoH_low hcap
      constructor
      · refine ⟨m, ?_⟩
        have hlen : (hist ++ [m]).length - 1 = hist.length := by
          simp
        rw [← hlen]
        exact find_set_self h₁ c _
      · intro x hx hlt
        rw [find_set_ne _ _ (Ne.symm hx), k2 x hlt]
  · exact absurd hch (by simp)

/-- Claim C10: `restore_memento` replaces the container's whole attribute
dictionary with deep copies taken from the snapshot, bookkeeping fields
included.  After a successful `undo` on a caretaker at `c` driving the
originator at `a`, where the restored memento `m` stores a snapshot whose
dictionary held the capture-time readonly set `ss` and a caretaker link to
the capture-time caretaker copy `c₀`: the restored originator's readonly
set equals `ss`, its caretaker link points to a fresh caretaker `c₂`
distinct from `c` whose cursor, labels, counter and history length are the
capture-time ones, and a subsequent successful `set_state` auto-checkpoint
appends one memento to the detached copy `c₂` while the original
caretaker `c` keeps exactly the decremented cursor and its old history. -/
theorem C10_restore_detaches_caretaker
    {f f₂ : Nat} {h : Heap} {a c m r c₀ : Nat}
    {hist : List Nat} {pos cnt : Nat} {labels : List String}
    {ss : List String} {rest : List (String × HVal)}
    {hist₀ : List Nat} {pos₀ cnt₀ : Nat} {labels₀ : List String} {oref₀ : Nat}
    {h₃ : Heap} {kwargs : List (String × HVal)} {ts : String} {h₄ : Heap}
    (hw : WFdom h)
    (hfc : h.find c = some (.care hist pos labels cnt a))
    (hpos : ¬ pos = 0)
    (hm : hist.get? (pos - 1) = some m)
    (hmv : h.find m = some (.mem (.href r)))
    (hr : h.find r = some (.orig (("_Originator__caretaker", .href c₀) ::
        ("_Originator__readonly", .hset ss) :: rest)))
    (hc₀ : h.find c₀ = some (.care hist₀ pos₀ labels₀ cnt₀ oref₀))
    (ha : a < h.next) (hca : c ≠ a) (hra : r ≠ a)
    (hc₀a : c₀ ≠ a) (hc₀c : c₀ ≠ c)
    (hk1 : "_Originator__caretaker" ∉ rest.map (·.1))
    (hk2 : "_Originator__readonly" ∉ rest.map (·.1))
    (hundo : undoH f h c = some (.ok h₃))
    (hkw : "_Originator__caretaker" ∉ kwargs.map (·.1))
    (hsst : setStateH f₂ h₃ a kwargs ts = some (.ok h₄)) :
    ∃ c₂ d₃ hist₂ oref₂,
      c₂ ≠ c ∧
      dictOf h₃ a = some d₃ ∧
      lookupH d₃ "_Originator__readonly" = some (.hset ss) ∧
      lookupH d₃ "_Originator__caretaker" = some (.href c₂) ∧
      h₃.find c₂ = some (.care hist₂ pos₀ labels₀ cnt₀ oref₂) ∧
      hist₂.length = hist₀.length ∧
      h₃.find c = some (.care hist (pos - 1) labels cnt a) ∧
      h₄.find c = some (.care hist (pos - 1) labels cnt a) ∧
      ∃ hist₄ labels₄,
        h₄.find c₂ = some (.care hist₄ hist₂.length labels₄ (cnt₀ + 1) oref₂) ∧
        hist₄.length = hist₂.length + 1 := by
  have hclt : c < h.next := find_lt_next hw hfc
  have hmc : m ≠ c := by
    intro he
    rw [he, hfc] at hmv
    simp at hmv
  have hrc : r ≠ c := by
    intro he
    rw [he, hfc] at hr
    simp at hr
  unfold undoH at hundo
  split at hundo
  · rename_i hist' pos' labels' cnt' oref' hq
    rw [hfc] at hq
    simp only [Option.some.injEq, HObj.care.injEq] at hq
    obtain ⟨rfl, rfl, rfl, rfl, rfl⟩ := hq
    rw [if_neg hpos] at hundo
    split at hundo
    · rename_i m' hm'
      rw [hm] at hm'
      simp only [Option.some.injEq] at hm'
      subst hm'
      unfold restoreMementoH at hundo
      split at hundo
      · rename_i st hq2
        rw [find_set_ne _ _ (Ne.symm hmc), hmv] at hq2
        simp only [Option.some.injEq, HObj.mem.injEq] at hq2
        subst hq2
        have hwH0 : WFdom ((h.set c (.care hist (pos - 1) labels cnt a)).set a
            (.orig [])) :=
          WFdom_set (WFdom_set hw hclt) (show a < h.next from ha)
        have hH0r : ((h.set c (.care hist (pos - 1) labels cnt a)).set a
            (.orig [])).find r = some (.orig (("_Originator__caretaker", .href c₀) ::
            ("_Originator__readonly", .hset ss) :: rest)) := by
          rw [find_set_ne _ _ (Ne.symm hra), find_set_ne _ _ (Ne.symm hrc)]
          exact hr
        have hH0c₀ : ((h.set c (.care hist (pos - 1) labels cnt a)).set a
            (.orig [])).find c₀ = some (.care hist₀ pos₀ labels₀ cnt₀ oref₀) := by
          rw [find_set_ne _ _ (Ne.symm hc₀a), find_set_ne _ _ (Ne.symm hc₀c)]
          exact hc₀
        split at hundo
        · exact absurd hundo (by simp)
        · rename_i r2 hA mmA R hcvq
          obtain ⟨c₁, rest₁, hvA, hnA, hfA, hkA, hc₁lo, hc₁hi, hist₁, oref₁,
            hfc₁, hlen₁⟩ := copyOrig_shape hwH0 hH0r hH0c₀ hcvq
          obtain ⟨gA1, gA2, gA3, _⟩ := copyVal_good f _ [] _ hA mmA _ hcvq
          simp only [HVal.href.injEq] at hvA
          have hR : R = h.next := hvA
          subst hR
          have gA1' : h.next ≤ hA.next := gA1
          have hnA' : h.next + 1 ≤ hA.next := hnA
          have hc₁lo' : h.next < c₁ := hc₁lo
          have hfA' : hA.find h.next = some (.orig
              (("_Originator__caretaker", .href c₁) ::
               ("_Originator__readonly", .hset ss) :: rest₁)) := hfA
          have hwA : WFdom hA := gA3 hwH0
          split at hundo
          · rename_i sd hsd
            have hdA : dictOf hA h.next = some
                (("_Originator__caretaker", .href c₁) ::
                 ("_Originator__readonly", .hset ss) :: rest₁) := by
              unfold dictOf
              rw [hfA']
            rw [hdA] at hsd
            simp only [Option.some.injEq] at hsd
            subst hsd
            unfold restoreEntriesH at hundo
            split at hundo
            · exact absurd hundo (by simp)
            · split at hundo
              · exact absurd hundo (by simp)
              · rename_i r3 hB mmB vB hcvB
                obtain ⟨hvB, hnB, hist₂, oref₂, hfc₂, hlen₂⟩ :=
                  copyCare_shape hfc₁ (show lookupMemo [] c₁ = none from rfl) hcvB
                subst hvB
                obtain ⟨gB1, gB2, gB3, _⟩ := copyVal_good f hA [] _ hB mmB _ hcvB
                have hwB : WFdom hB := gB3 hwA
                split at hundo
                · exact absurd hundo (by simp)
                · rename_i hC hse
                  obtain ⟨dB, hfaB, rfl⟩ := heapSetattr_ok_shape hse
                  have hfaB' : hB.find a = some (.orig []) := by
                    rw [gB2 a (show a < hA.next by omega), gA2 a ha]
                    exact find_set_self _ _ _
                  rw [hfaB'] at hfaB
                  simp only [Option.some.injEq, HObj.orig.injEq] at hfaB
                  subst hfaB
                  unfold restoreEntriesH at hundo
                  split at hundo
                  · exact absurd hundo (by simp)
                  · split at hundo
                    · rename_i hcvnone
                      rw [copyVal_prim_eq (v := HVal.hset ss) rfl] at hcvnone
                      exact absurd hcvnone (by simp)
                    · rename_i r4 hD mmD vD hcvD
                      rw [copyVal_prim_eq (v := HVal.hset ss) rfl] at hcvD
                      simp only [Option.some.injEq, Prod.mk.injEq] at hcvD
                      obtain ⟨rfl, rfl, rfl⟩ := hcvD
                      split at hundo
                      · exact absurd hundo (by simp)
                      · rename_i hE hse2
                        obtain ⟨dC, hfaC, rfl⟩ := heapSetattr_ok_shape hse2
                        rw [find_set_self _ _ _] at hfaC
                        simp only [Option.some.injEq, HObj.orig.injEq] at hfaC
                        subst hfaC
                        obtain ⟨e1, e2, e3, e4⟩ := restoreEntriesH_effect rest₁ _ a h₃
                          (WFdom_set (WFdom_set hwB (show a < hB.next by omega))
                            (show a < hB.next by omega)) hundo
                        have e1' : hB.next ≤ h₃.next := e1
                        obtain ⟨d₃, hfa₃, hlk₃⟩ := e4 _ (find_set_self _ _ _)
                        have hro₃ : lookupH d₃ "_Originator__readonly" =
                            some (.hset ss) := by
                          rw [hlk₃ _ (by rw [hkA]; exact hk2)]
                          exact lookupH_setattrRawH_self _ _ _
                        have hct₃ : lookupH d₃ "_Originator__caretaker" =
                            some (.href hA.next) := by
                          rw [hlk₃ _ (by rw [hkA]; exact hk1),
                            lookupH_setattrRawH_ne _ _ (by decide)]
                          exact lookupH_setattrRawH_self _ _ _
                        have hf₃c₂ : h₃.find hA.next =
                            some (.care hist₂ pos₀ labels₀ cnt₀ oref₂) := by
                          rw [e2 hA.next (show hA.next ≠ a by omega)
                              (show hA.next < hB.next by omega),
                            find_set_ne _ _ (show a ≠ hA.next by omega),
                            find_set_ne _ _ (show a ≠ hA.next by omega)]
                          exact hfc₂
                        have hf₃c : h₃.find c =
                            some (.care hist (pos - 1) labels cnt a) := by
                          rw [e2 c hca (show c < hB.next by omega),
                            find_set_ne _ _ (Ne.symm hca),
                            find_set_ne _ _ (Ne.symm hca),
                            gB2 c (show c < hA.next by omega), gA2 c hclt,
                            find_set_ne _ _ (Ne.symm hca)]
                          exact find_set_self _ _ _
                        unfold setStateH at hsst
                        split at hsst
                        · exact absurd hsst (by simp)
                        · rename_i h₅ hsm
                          obtain ⟨s1, s2, s3⟩ := setManyH_effect kwargs h₃ a h₅ hsm
                          obtain ⟨d₅, hfa₅, hlk₅⟩ := s3 d₃ hfa₃
                          split at hsst
                          · exact absurd hsst (by simp)
                          · rename_i d₅' hdq
                            have hd₅ : dictOf h₅ a = some d₅ := by
                              unfold dictOf
                              rw [hfa₅]
                            rw [hd₅] at hdq
                            simp only [Option.some.injEq] at hdq
                            subst hdq
                            have hct₅ : lookupH d₅ "_Originator__caretaker" =
                                some (.href hA.next) := by
                              rw [hlk₅ _ hkw]
                              exact hct₃
                            split at hsst
                            · rename_i c' heq
                              rw [hct₅] at heq
                              simp only [Option.some.injEq, HVal.href.injEq] at heq
                              subst heq
                              split at hsst
                              · exact absurd hsst (by simp)
                              · rename_i h₆ hch
                                simp only [Option.some.injEq, Except.ok.injEq] at hsst
                                subst hsst
                                have hf₅c₂ : h₅.find hA.next =
                                    some (.care hist₂ pos₀ labels₀ cnt₀ oref₂) := by
                                  rw [s2 hA.next (show hA.next ≠ a by omega)]
                                  exact hf₃c₂
                                obtain ⟨⟨m', hm'⟩, kp⟩ := checkpointH_effect hf₅c₂ hch
                                have hf₄c : h₆.find c =
                                    some (.care hist (pos - 1) labels cnt a) := by
                                  rw [kp c (show c ≠ hA.next by omega)
                                      (show c < h₅.next by rw [s1]; omega),
                                    s2 c hca]
                                  exact hf₃c
                                refine ⟨hA.next, d₃, hist₂, oref₂,
                                  by omega, ?_, hro₃, hct₃, hf₃c₂, ?_, hf₃c, hf₄c,
                                  hist₂ ++ [m'], _, hm', by simp⟩
                                · unfold dictOf
                                  rw [hfa₃]
                                · rw [hlen₂, hlen₁]
                            · rename_i heq
                              rw [hct₅] at heq
                              simp at heq
                            · rename_i heq
                              exact absurd hsst (by simp)
                            · rename_i heq
                              rw [hct₅] at heq
                              simp at heq
          · exact absurd hundo (by simp)
        · exact absurd hundo (by simp)
      · exact absurd hundo (by simp)
    · rename_i hm'
      rw [hm] at hm'
      simp at hm'
  · exact absurd hundo (by simp)

/-- Claim C2 (code bug): `restore_memento` does NOT recursively restore
into an existing nested container.  `self.__dict__.clear()` runs before
the per-key `hasattr(target, key)` check, so the branch that would
recurse into an existing nested `iOriginator` is unreachable (and that
branch calls the undefined name `recursive_restore` — the local function
is `_recursive_restore` — so it would raise `NameError` if it were ever
reached).  Evaluated at the failing input: after capture, mutation of the
nested child (address 0) to `value = 99`, and restore, the parent's
`child` attribute references a FRESH copy at address 7 holding the
captured `value = 10`, while the pre-existing nested instance at
address 0 still holds `value = 99` — the pre-existing external reference
does not observe the restored values, contradicting the claim. -/
theorem C2_restore_replaces_nested :
    c2parentChildRef = some (.href 7) ∧ (7 : Nat) ≠ 0 ∧
    c2oldChildDict = some [("_Originator__caretaker", .hnone),
      ("_Originator__readonly", .hset []), ("value", .hint 99)] ∧
    c2newChildDict = some [("_Originator__caretaker", .hnone),
      ("_Originator__readonly", .hset []), ("value", .hint 10)] :=
  ⟨rfl, by decide, rfl, rfl⟩

/-- Witness for C6 at the concrete one-attribute container, with one
mutation of the original container between capture and materialise. -/
theorem C6_snapshot_isolation_witness :
    (∃ h'', getSnapshotH 2 (applyMuts c6h2 [Mut.set 0 "x" (.hint 5)]) 2
        = some (h'', HVal.href 3) ∧
      c6h3.next = h''.next ∧ ∀ x, c6h.next ≤ x → c6h3.find x = h''.find x) ∧
    (HVal.href 3 = .href c6h2.next ∧
      ∀ h₃ w, getSnapshotH 2 c6h3 2 = some (h₃, w) → w ≠ .href c6h2.next) :=
  C6_snapshot_isolation 2 2 c6h 0 (by decide) c6h2 2 rfl
    [Mut.set 0 "x" (.hint 5)] (by decide) c6h3 (.href 3) rfl

/-- Witness for C10 on the concrete five-object heap `c10h`: after
`undo`, the originator's caretaker link is the detached copy (address 7,
not the original caretaker 1), its readonly set is the capture-time
`{"k"}`, and `set_state(x=7)` auto-checkpoints onto the copy while the
original caretaker keeps its one-element history. -/
theorem C10_restore_detaches_caretaker_witness :
    ∃ c₂ d₃ hist₂ oref₂,
      c₂ ≠ 1 ∧
      dictOf c10h3 0 = some d₃ ∧
      lookupH d₃ "_Originator__readonly" = some (.hset ["k"]) ∧
      lookupH d₃ "_Originator__caretaker" = some (.href c₂) ∧
      c10h3.find c₂ = some (.care hist₂ 0 [] 0 oref₂) ∧
      hist₂.length = 0 ∧
      c10h3.find 1 = some (.care [4] 0 ["l1"] 1 0) ∧
      c10h4.find 1 = some (.care [4] 0 ["l1"] 1 0) ∧
      ∃ hist₄ labels₄,
        c10h4.find c₂ = some (.care hist₄ hist₂.length labels₄ 1 oref₂) ∧
        hist₄.length = hist₂.length + 1 :=
  @C10_restore_detaches_caretaker 6 6 c10h 0 1 4 2 3 [4] 1 1 ["l1"] ["k"]
    [("x", .hint 1)] [] 0 0 [] 2 c10h3 [("x", .hint 7)] "T" c10h4
    (by decide) rfl (by decide) rfl rfl rfl rfl
    (by decide) (by decide) (by decide) (by decide) (by decide)
    (by decide) (by decide) rfl (by decide) rfl
